import Mathlib

/-!
# Verification of the WebGPU/Deno triangle-counting pipeline

Shallow embedding of the two source files:

* `src/triangle_counter.js` — the host-side preprocessing pipeline
  (`processGraph`): two-pass ingestion, 64-bit edge packing, sort-based
  deduplication, degree computation, degree-rank orientation, CSR
  construction, and the dispatch / result read-back in `main`.
* `src/unnamed/part_000` (the WGSL compute shader) — `count_intersection`
  and the per-invocation kernel entry point `main`.

Conventions of the embedding:

* JavaScript `Number` values that hold node identifiers and counts are
  modelled as `Nat`; the host arithmetic on them (comparisons, `Math.max`,
  increments) is exact for the integers that occur.
* Typed-array stores that truncate are modelled with an explicit
  `% 2 ^ 64` (`BigUint64Array` element stores) or `% 2 ^ 32`
  (`Uint32Array` element stores and increments).
* The raw edge stream is a `List (Nat × Nat)` of parsed records; a separate
  line layer models the blank-line / comment skipping of both passes, with
  the numeric parsing of a line abstracted as a parameter (the reference
  source inherits JavaScript `Number` parsing, whose failure values are not
  integers).
* WGSL `u32` loop indices of the kernel are modelled as `Nat`: they are
  bounded by buffer element counts, which are below `2 ^ 32` for any
  bindable storage buffer, so no `u32` wrap can occur in them.
-/

namespace TriCount

/-- `2 ^ 32`, the modulus of a `Uint32Array` element / WGSL `u32`. -/
def M32 : Nat := 2 ^ 32

/-- `2 ^ 64`, the modulus of a `BigUint64Array` element. -/
def M64 : Nat := 2 ^ 64

/-! ## Edge packing (triangle_counter.js, lines 148–150)

`const u = BigInt(Math.min(node1, node2)); const v = BigInt(Math.max(...));
allPackedEdges[edgeIndex++] = (u << 32n) | v;` — the store into the
`BigUint64Array` slot takes the value modulo `2 ^ 64`. -/

/-- Pack one raw record into its 64-bit canonical-edge key, exactly as the
second ingestion pass does. -/
def packRecord (r : Nat × Nat) : Nat :=
  ((Nat.min r.1 r.2 <<< 32) ||| Nat.max r.1 r.2) % M64

/-- High 32-bit half of a packed edge: `Number(packed >> 32n)`. -/
def unpackHi (p : Nat) : Nat := p >>> 32

/-- Low 32-bit half of a packed edge: `Number(packed & 0xFFFFFFFFn)`. -/
def unpackLo (p : Nat) : Nat := p &&& 0xFFFFFFFF

/-! ## Pass 1 statistics (triangle_counter.js, lines 113–132), record level -/

/-- `maxNodeId` after pass 1: starts at `0`, and for every record the code
runs `const maxInPair = Math.max(node1, node2); if (maxInPair > maxNodeId)
maxNodeId = maxInPair;`. -/
def maxNodeId (records : List (Nat × Nat)) : Nat :=
  records.foldl
    (fun m r => if Nat.max r.1 r.2 > m then Nat.max r.1 r.2 else m) 0

/-- `validEdgeCount` after pass 1: one increment per record with
`node1 !== node2`. -/
def validEdgeCount (records : List (Nat × Nat)) : Nat :=
  records.foldl (fun c r => if r.1 ≠ r.2 then c + 1 else c) 0

/-- `officialEdgeCount` after pass 1: one increment per record. -/
def officialEdgeCount (records : List (Nat × Nat)) : Nat :=
  records.foldl (fun c _ => c + 1) 0

/-- The `uniqueNodeIds` set after pass 1 (`uniqueNodeIds.add(node1);
uniqueNodeIds.add(node2);`). -/
def uniqueNodeIds (records : List (Nat × Nat)) : Finset Nat :=
  records.foldl (fun s r => insert r.2 (insert r.1 s)) ∅

/-! ## Pass 2: the packed edge array (triangle_counter.js, lines 140–151)

The pass skips the self-loop records (`if (node1 === node2) continue;`) and
appends the packed key of every other record, in input order. -/

/-- The contents of `allPackedEdges` after pass 2. -/
def allPackedEdges (records : List (Nat × Nat)) : List Nat :=
  (records.filter (fun r => r.1 ≠ r.2)).map packRecord

/-! ## Stage 3: sort + adjacent deduplication (lines 155–176)

`allPackedEdges.sort()` sorts the 64-bit keys numerically ascending; the
dedup loop keeps element `i` iff `i = 0` or
`allPackedEdges[i] !== allPackedEdges[i-1]`. -/

/-- The adjacent-duplicate filter of stage 3, walking the sorted array and
dropping every element equal to its predecessor. -/
def dedupGo (prev : Nat) : List Nat → List Nat
  | [] => []
  | y :: ys => if y = prev then dedupGo y ys else y :: dedupGo y ys

/-- Stage 3 dedup: the first element is always kept. -/
def dedupAdjacent : List Nat → List Nat
  | [] => []
  | x :: xs => x :: dedupGo x xs

/-- The contents of `uniquePackedEdges`: sort, then drop adjacent
duplicates. -/
def uniquePackedEdges (records : List (Nat × Nat)) : List Nat :=
  dedupAdjacent (List.insertionSort (· ≤ ·) (allPackedEdges records))

/-- `nodeCountForAllocation = maxNodeId + 1` (line 178). -/
def nodeCountForAllocation (records : List (Nat × Nat)) : Nat :=
  maxNodeId records + 1

/-! ## Degrees (triangle_counter.js, lines 179–184)

`degrees` is a `Uint32Array(nodeCountForAllocation)`; each unique packed
edge increments the slots of both halves.  A `Uint32Array` increment stores
modulo `2 ^ 32`.  Both halves of a packed key are below `2 ^ 32` and (when
some identifier reaches the key's half, see `maxNodeId`) never exceed
`maxNodeId`, so the stores are always in bounds; the array is modelled as a
total function on `Nat`. -/

/-- One `degrees[x]++` store. -/
def bumpDeg (d : Nat → Nat) (x : Nat) : Nat → Nat :=
  fun y => if y = x then (d x + 1) % M32 else d y

/-- The degree array after the loop over a given packed-edge list. -/
def degreesOf (l : List Nat) : Nat → Nat :=
  l.foldl (fun d p => bumpDeg (bumpDeg d (unpackHi p)) (unpackLo p))
    (fun _ => 0)

/-- The `degrees` array of the pipeline. -/
def degrees (records : List (Nat × Nat)) : Nat → Nat :=
  degreesOf (uniquePackedEdges records)

/-! ## Orientation (triangle_counter.js, lines 186–196) -/

/-- The orientation test of line 191:
`degrees[u] < degrees[v] || (degrees[u] === degrees[v] && u < v)`. -/
def rltb (deg : Nat → Nat) (u v : Nat) : Bool :=
  decide (deg u < deg v) || (decide (deg u = deg v) && decide (u < v))

/-- One step of the orientation loop: push `v` onto `orientedAdj[u]` when
`u` is lower-ranked, else push `u` onto `orientedAdj[v]`. -/
def orientStep (deg : Nat → Nat) (adj : Nat → List Nat) (p : Nat) :
    Nat → List Nat :=
  let u := unpackHi p
  let v := unpackLo p
  if rltb deg u v then
    fun x => if x = u then adj u ++ [v] else adj x
  else
    fun x => if x = v then adj v ++ [u] else adj x

/-- The `orientedAdj` array of lists after the orientation loop. -/
def orientedAdj (records : List (Nat × Nat)) : Nat → List Nat :=
  (uniquePackedEdges records).foldl (orientStep (degrees records))
    (fun _ => [])

/-! ## CSR construction (triangle_counter.js, lines 198–210)

The loop over `i < nodeCountForAllocation` sorts row `i` ascending
(`sort((a, b) => a - b)`), stores `adj_offsets[i] = currentOffset` (a
`Uint32Array` store, modulo `2 ^ 32`), appends the row to `flat_adj_data`,
and advances `currentOffset` by the row length; finally
`adj_offsets[N] = currentOffset`. -/

/-- Node `i`'s sorted oriented row. -/
def sortedRow (records : List (Nat × Nat)) (i : Nat) : List Nat :=
  List.insertionSort (· ≤ ·) (orientedAdj records i)

/-- The CSR fill loop, returning (offsets written so far, flat data so far,
`currentOffset`). -/
def csrFold (records : List (Nat × Nat)) (n : Nat) :
    List Nat × List Nat × Nat :=
  (List.range n).foldl
    (fun acc i =>
      (acc.1 ++ [acc.2.2 % M32], acc.2.1 ++ sortedRow records i,
        acc.2.2 + (sortedRow records i).length))
    ([], [], 0)

/-- The `adj_offsets` array (length `N + 1`; the final slot gets
`currentOffset`). -/
def adjOffsets (records : List (Nat × Nat)) : List Nat :=
  (csrFold records (nodeCountForAllocation records)).1 ++
    [(csrFold records (nodeCountForAllocation records)).2.2 % M32]

/-- The `adj_data` flat array. -/
def adjData (records : List (Nat × Nat)) : List Nat :=
  (csrFold records (nodeCountForAllocation records)).2.1

/-! ## The WGSL kernel (src/unnamed/part_000)

`count_intersection` and `main`, with buffers passed explicitly.  Array
reads are modelled with `List.getD _ 0`; the kernel only ever reads in
bounds for the buffers the host builds. -/

/-- The body of the `while` loop of `count_intersection`, as a structural
recursion over a fuel bound.  Each iteration shrinks
`(iEnd - i) + (jEnd - j)` by at least one, so any fuel at least that
measure runs the loop to completion (`interGo_fuel`). -/
def interGo (data : List Nat) : Nat → Nat → Nat → Nat → Nat → Nat
  | 0, _, _, _, _ => 0
  | fuel + 1, i, iEnd, j, jEnd =>
    if i < iEnd ∧ j < jEnd then
      let nu := data.getD i 0
      let nv := data.getD j 0
      if nu = nv then interGo data fuel (i + 1) iEnd (j + 1) jEnd + 1
      else if nu < nv then interGo data fuel (i + 1) iEnd j jEnd
      else interGo data fuel i iEnd (j + 1) jEnd
    else 0

/-- The two-pointer merge `count_intersection(u_start, u_end, v_start,
v_end)` of the shader: advance the pointer with the smaller value, count
and advance both on equality, stop when either pointer reaches its end. -/
def count_intersection (data : List Nat) (i iEnd j jEnd : Nat) : Nat :=
  interGo data ((iEnd - i) + (jEnd - j)) i iEnd j jEnd

/-- The `for (var i = u_adj_start; i < u_adj_end; ...)` loop of the kernel
`main`, as a structural recursion over the fuel `iEnd - i`: its total
contribution to the atomic counter.  The shader guards the `atomicAdd`
behind `common_neighbors > 0`; adding zero unconditionally yields the same
accumulated total. -/
def edgeLoopGo (offs data : List Nat) (uS uE : Nat) :
    Nat → Nat → Nat → Nat
  | 0, _, _ => 0
  | fuel + 1, i, iEnd =>
    if i < iEnd then
      let v := data.getD i 0
      count_intersection data uS uE (offs.getD v 0) (offs.getD (v + 1) 0) +
        edgeLoopGo offs data uS uE fuel (i + 1) iEnd
    else 0

/-- The kernel's per-node edge loop with exactly enough fuel. -/
def kernelEdgeLoop (offs data : List Nat) (uS uE i iEnd : Nat) : Nat :=
  edgeLoopGo offs data uS uE (iEnd - i) i iEnd

/-- One kernel invocation (`main` in the shader) for global id `u`: the
total it adds to the atomic counter.  `node_count = arrayLength(&adj_offsets)
- 1u`; an invocation with `u >= node_count` returns without touching
anything. -/
def kernelMain (offs data : List Nat) (u : Nat) : Nat :=
  let node_count := offs.length - 1
  if u ≥ node_count then 0
  else
    kernelEdgeLoop offs data (offs.getD u 0) (offs.getD (u + 1) 0)
      (offs.getD u 0) (offs.getD (u + 1) 0)

/-- The number of invocations the host launches:
`Math.ceil(nodeCountForAllocation / 256)` workgroups of size 256
(triangle_counter.js lines 81–82). -/
def dispatchSize (n : Nat) : Nat := ((n + 255) / 256) * 256

/-- The value accumulated into the `atomic<u32>` result counter over the
whole dispatch, before wrap-around.  The adds are commutative and
associative, so any interleaving of the atomic adds yields this total. -/
def kernelSum (records : List (Nat × Nat)) : Nat :=
  ∑ u ∈ Finset.range (dispatchSize (nodeCountForAllocation records)),
    kernelMain (adjOffsets records) (adjData records) u

/-- The `u32` read back from the result buffer after the dispatch
(triangle_counter.js line 94): the accumulated total modulo `2 ^ 32`. -/
def kernelResult (records : List (Nat × Nat)) : Nat :=
  kernelSum records % M32

/-! ## The graph the pipeline produces, and its triangles -/

/-- Adjacency in the produced graph: the unordered pair `{a, b}` is an edge
iff `a ≠ b` and its packed key is a canonical edge. -/
def adjacentP (records : List (Nat × Nat)) (a b : Nat) : Prop :=
  a ≠ b ∧ packRecord (a, b) ∈ uniquePackedEdges records

instance (records : List (Nat × Nat)) (a b : Nat) :
    Decidable (adjacentP records a b) := by
  unfold adjacentP; exact inferInstance

/-- The number of 3-cliques of the produced graph: triples `(a, b, c)` with
`a < b < c`, pairwise adjacent, one per triangle. -/
def triangleCount (records : List (Nat × Nat)) : Nat :=
  ((Finset.range (nodeCountForAllocation records) ×ˢ
      Finset.range (nodeCountForAllocation records) ×ˢ
      Finset.range (nodeCountForAllocation records)).filter
    (fun t => t.1 < t.2.1 ∧ t.2.1 < t.2.2 ∧ adjacentP records t.1 t.2.1 ∧
      adjacentP records t.1 t.2.2 ∧ adjacentP records t.2.1 t.2.2)).card

/-! ## Line layer (both ingestion passes, lines 118–151)

Both passes run `if (lineBytes.length === 0) continue;` before decoding and
`if (line.startsWith("#")) continue;` after.  The numeric parsing
`line.trim().split(/\s+/).map(Number)` is abstracted as a parameter
`parse`; the skipping happens before any parsing. -/

/-- A line survives the skip checks of either pass iff it is non-empty and
does not start with `#`. -/
def keepLine (line : String) : Bool :=
  !(line.length == 0) && !(line.startsWith "#")

/-- Pass-1 state: `(officialEdgeCount, uniqueNodeIds, maxNodeId,
validEdgeCount)`. -/
structure PassOneState where
  official : Nat
  nodeIds : Finset Nat
  maxId : Nat
  valid : Nat

/-- One pass-1 loop iteration over a raw line. -/
def passOneStep (parse : String → Nat × Nat) (s : PassOneState)
    (line : String) : PassOneState :=
  if line.length == 0 then s
  else if line.startsWith "#" then s
  else
    let r := parse line
    { official := s.official + 1
      nodeIds := insert r.2 (insert r.1 s.nodeIds)
      maxId := if Nat.max r.1 r.2 > s.maxId then Nat.max r.1 r.2 else s.maxId
      valid := if r.1 ≠ r.2 then s.valid + 1 else s.valid }

/-- Pass 1 over the line stream. -/
def passOne (parse : String → Nat × Nat) (lines : List String) :
    PassOneState :=
  lines.foldl (passOneStep parse) ⟨0, ∅, 0, 0⟩

/-- One pass-2 loop iteration over a raw line: append the packed key unless
the line is skipped or is a self-loop record. -/
def passTwoStep (parse : String → Nat × Nat) (acc : List Nat)
    (line : String) : List Nat :=
  if line.length == 0 then acc
  else if line.startsWith "#" then acc
  else
    let r := parse line
    if r.1 = r.2 then acc else acc ++ [packRecord r]

/-- Pass 2 over the line stream: the contents of `allPackedEdges`. -/
def passTwo (parse : String → Nat × Nat) (lines : List String) : List Nat :=
  lines.foldl (passTwoStep parse) []

/-! ## Auxiliary definitions used by the statements and proofs -/

/-- The half-open slice `[s, e)` of a flat array. -/
def sliceD (data : List Nat) (s e : Nat) : List Nat := (data.take e).drop s

/-- List-level restatement of the kernel's two-pointer merge, on the two
slices themselves. -/
def interCount : List Nat → List Nat → Nat
  | x :: xs, y :: ys =>
    if x = y then interCount xs ys + 1
    else if x < y then interCount xs (y :: ys)
    else interCount (x :: xs) ys
  | _, _ => 0
termination_by xs ys => xs.length + ys.length

/-- The node under whose row the orientation loop records a packed edge. -/
def targetOf (deg : Nat → Nat) (p : Nat) : Nat :=
  if rltb deg (unpackHi p) (unpackLo p) then unpackHi p else unpackLo p

/-- The neighbor the orientation loop appends to `targetOf`'s row. -/
def pushedOf (deg : Nat → Nat) (p : Nat) : Nat :=
  if rltb deg (unpackHi p) (unpackLo p) then unpackLo p else unpackHi p

/-- The rank order actually used by the orientation loop, as a
proposition. -/
def rlt (records : List (Nat × Nat)) (u v : Nat) : Prop :=
  rltb (degrees records) u v = true

/-- The degree of a node in the canonical graph: the number of canonical
edges incident to it. -/
def trueDeg (records : List (Nat × Nat)) (x : Nat) : Nat :=
  ((uniquePackedEdges records).filter
    (fun p => decide (unpackHi p = x) || decide (unpackLo p = x))).length

/-- The rank order of the specification, stated over canonical-graph
degrees: `rank(u) < rank(v)` iff `degree(u) < degree(v)`, or the degrees
are equal and `u < v`. -/
def rankLt (records : List (Nat × Nat)) (u v : Nat) : Prop :=
  trueDeg records u < trueDeg records v ∨
    (trueDeg records u = trueDeg records v ∧ u < v)

/-- Operating condition of the 64-bit packing: every endpoint identifier of
the input fits in 32 bits. -/
def IdsBounded (records : List (Nat × Nat)) : Prop :=
  ∀ r ∈ records, r.1 < M32 ∧ r.2 < M32

/-- Operating condition of the `u32` CSR interface: the canonical edge
count fits in 32 bits. -/
def EdgesBounded (records : List (Nat × Nat)) : Prop :=
  (uniquePackedEdges records).length < M32

instance (records : List (Nat × Nat)) (u v : Nat) :
    Decidable (rlt records u v) := by
  unfold rlt
  exact inferInstance

instance (records : List (Nat × Nat)) : Decidable (IdsBounded records) := by
  unfold IdsBounded
  exact inferInstance

instance (records : List (Nat × Nat)) : Decidable (EdgesBounded records) := by
  unfold EdgesBounded
  exact inferInstance

/-- The triples the kernel's nested iteration enumerates: `u` with `v` in
`u`'s oriented row and `w` in both `u`'s and `v`'s oriented rows. -/
def kernelTriples (records : List (Nat × Nat)) : Finset (Nat × Nat × Nat) :=
  let n := nodeCountForAllocation records
  (Finset.range n ×ˢ Finset.range n ×ˢ Finset.range n).filter
    (fun t => t.2.1 ∈ (orientedAdj records t.1).toFinset ∧
      t.2.2 ∈ (orientedAdj records t.1).toFinset ∧
      t.2.2 ∈ (orientedAdj records t.2.1).toFinset)

/-- Triples below `n` that are strictly increasing for a relation `rel` and
pairwise adjacent for `adj`. -/
def sortedTriples (n : Nat) (rel adj : Nat → Nat → Prop)
    [DecidableRel rel] [DecidableRel adj] : Finset (Nat × Nat × Nat) :=
  (Finset.range n ×ˢ Finset.range n ×ˢ Finset.range n).filter
    (fun t => rel t.1 t.2.1 ∧ rel t.2.1 t.2.2 ∧ rel t.1 t.2.2 ∧
      adj t.1 t.2.1 ∧ adj t.1 t.2.2 ∧ adj t.2.1 t.2.2)

/-- The 3-element node sets below `n` that are pairwise adjacent: the
triangles themselves, one set per triangle. -/
def triangleSets (n : Nat) (adj : Nat → Nat → Prop) [DecidableRel adj] :
    Finset (Finset Nat) :=
  ((Finset.range n).powersetCard 3).filter
    (fun S => ∀ a ∈ S, ∀ b ∈ S, a ≠ b → adj a b)

/-- The canonical edge list read back as endpoint pairs, the way every
consumer of `uniquePackedEdges` reads it: `(packed >> 32n,
packed & 0xFFFFFFFFn)`. -/
def canonicalPairs (records : List (Nat × Nat)) : List (Nat × Nat) :=
  (uniquePackedEdges records).map (fun p => (unpackHi p, unpackLo p))

/-! # Lemmas -/

/-! ## Packing and unpacking -/

theorem mask_eq : (0xFFFFFFFF : Nat) = 2 ^ 32 - 1 := by norm_num

theorem natMin_lt_natMax {a b : Nat} (h : a ≠ b) :
    Nat.min a b < Nat.max a b := by
  simp only [Nat.min_def, Nat.max_def]
  split <;> omega

theorem natMin_left {a b : Nat} (h : a ≤ b) : Nat.min a b = a := by
  simp only [Nat.min_def]
  split <;> omega

theorem natMin_right {a b : Nat} (h : b ≤ a) : Nat.min a b = b := by
  simp only [Nat.min_def]
  split <;> omega

theorem natMax_left {a b : Nat} (h : b ≤ a) : Nat.max a b = a := by
  simp only [Nat.max_def]
  split <;> omega

theorem natMax_right {a b : Nat} (h : a ≤ b) : Nat.max a b = b := by
  simp only [Nat.max_def]
  split <;> omega

theorem unpackLo_lt (p : Nat) : unpackLo p < M32 := by
  have h := Nat.and_le_right (n := p) (m := 0xFFFFFFFF)
  have : (0xFFFFFFFF : Nat) < M32 := by norm_num [M32]
  exact lt_of_le_of_lt h this

theorem unpackHi_lt {p : Nat} (h : p < M64) : unpackHi p < M32 := by
  unfold unpackHi
  rw [Nat.shiftRight_eq_div_pow]
  apply Nat.div_lt_of_lt_mul
  have : M64 = 2 ^ 32 * 2 ^ 32 := by norm_num [M64]
  rw [this] at h
  simpa [M32] using h

theorem packRecord_lt (r : Nat × Nat) : packRecord r < M64 :=
  Nat.mod_lt _ (by norm_num [M64])

theorem packRecord_comm (x y : Nat) : packRecord (x, y) = packRecord (y, x) := by
  simp [packRecord, Nat.min_comm, Nat.max_comm]

theorem packRecord_eq_of_lt {x y : Nat} (hy : Nat.max x y < M32) :
    packRecord (x, y) = (Nat.min x y <<< 32) ||| Nat.max x y := by
  unfold packRecord
  apply Nat.mod_eq_of_lt
  have hmin : Nat.min x y < 2 ^ 32 := lt_of_le_of_lt (min_le_max) hy
  have := Nat.append_lt (x := Nat.max x y) (y := Nat.min x y)
    (n := 32) (m := 32) hy hmin
  simpa [M64] using this

theorem unpackHi_packRecord {x y : Nat} (hy : Nat.max x y < M32) :
    unpackHi (packRecord (x, y)) = Nat.min x y := by
  have hmin : Nat.min x y < M32 := lt_of_le_of_lt (min_le_max) hy
  rw [packRecord_eq_of_lt hy]
  unfold unpackHi
  apply Nat.eq_of_testBit_eq
  intro i
  rw [Nat.testBit_shiftRight, Nat.testBit_lor, Nat.testBit_shiftLeft]
  have hb : (Nat.max x y).testBit (32 + i) = false := by
    apply Nat.testBit_lt_two_pow
    calc Nat.max x y < 2 ^ 32 := hy
    _ ≤ 2 ^ (32 + i) := Nat.pow_le_pow_right (by norm_num) (by omega)
  rw [hb]
  simp

theorem unpackLo_packRecord {x y : Nat} (hy : Nat.max x y < M32) :
    unpackLo (packRecord (x, y)) = Nat.max x y := by
  rw [packRecord_eq_of_lt hy]
  unfold unpackLo
  apply Nat.eq_of_testBit_eq
  intro i
  rw [Nat.testBit_and, Nat.testBit_lor, Nat.testBit_shiftLeft, mask_eq,
    Nat.testBit_two_pow_sub_one]
  by_cases hi : i < 32
  · have hsh : (decide (i ≥ 32) && (Nat.min x y).testBit (i - 32)) = false := by
      simp [show ¬ (i ≥ 32) by omega]
    simp [hsh, hi]
  · have hb : (Nat.max x y).testBit i = false := by
      apply Nat.testBit_lt_two_pow
      calc Nat.max x y < 2 ^ 32 := hy
      _ ≤ 2 ^ i := Nat.pow_le_pow_right (by norm_num) (by omega)
    simp [hb, hi]

theorem packRecord_inj {x y a b : Nat} (hxy : Nat.max x y < M32)
    (hab : Nat.max a b < M32) (h : packRecord (x, y) = packRecord (a, b)) :
    Nat.min x y = Nat.min a b ∧ Nat.max x y = Nat.max a b := by
  constructor
  · have := congrArg unpackHi h
    rwa [unpackHi_packRecord hxy, unpackHi_packRecord hab] at this
  · have := congrArg unpackLo h
    rwa [unpackLo_packRecord hxy, unpackLo_packRecord hab] at this

/-! ## Sorting and deduplication -/

theorem dedupGo_subset {l : List Nat} {prev x : Nat}
    (hx : x ∈ dedupGo prev l) : x ∈ l := by
  induction l generalizing prev with
  | nil => simp [dedupGo] at hx
  | cons y ys ih =>
    rw [dedupGo] at hx
    by_cases hy : y = prev
    · simp only [hy, if_pos rfl] at hx
      exact List.mem_cons_of_mem _ (ih (by simpa [hy] using hx))
    · simp only [if_neg hy, List.mem_cons] at hx
      rcases hx with h | h
      · exact h ▸ List.mem_cons_self _ _
      · exact List.mem_cons_of_mem _ (ih h)

theorem mem_dedupGo {l : List Nat} {x : Nat} (prev : Nat) (hx : x ∈ l) :
    x ∈ dedupGo prev l ∨ x = prev := by
  induction l generalizing prev with
  | nil => simp at hx
  | cons y ys ih =>
    rw [dedupGo]
    rcases List.mem_cons.mp hx with rfl | h
    · by_cases hy : x = prev
      · exact Or.inr hy
      · simp [hy]
    · by_cases hy : y = prev
      · simpa [hy] using (ih y h).imp_right (fun e => e.trans hy)
      · rcases ih y h with h2 | h2
        · exact Or.inl (by simp [hy, h2])
        · exact Or.inl (by simp [hy, h2])

theorem mem_dedupAdjacent {l : List Nat} {x : Nat} :
    x ∈ dedupAdjacent l ↔ x ∈ l := by
  cases l with
  | nil => simp [dedupAdjacent]
  | cons y ys =>
    rw [dedupAdjacent]
    constructor
    · intro h
      rcases List.mem_cons.mp h with rfl | h
      · exact List.mem_cons_self _ _
      · exact List.mem_cons_of_mem _ (dedupGo_subset h)
    · intro h
      rcases List.mem_cons.mp h with rfl | h
      · exact List.mem_cons_self _ _
      · rcases mem_dedupGo y h with h2 | rfl
        · exact List.mem_cons_of_mem _ h2
        · exact List.mem_cons_self _ _

theorem dedupGo_sorted {l : List Nat} {prev : Nat}
    (hs : List.Sorted (· ≤ ·) l) (hp : ∀ z ∈ l, prev ≤ z) :
    List.Sorted (· < ·) (dedupGo prev l) ∧
      ∀ z ∈ dedupGo prev l, prev < z := by
  induction l generalizing prev with
  | nil => simp [dedupGo]
  | cons y ys ih =>
    rw [dedupGo]
    rcases List.sorted_cons.mp hs with ⟨hy, hys⟩
    by_cases hyp : y = prev
    · rw [if_pos hyp]
      have := ih hys hy
      exact ⟨this.1, fun z hz => hyp ▸ this.2 z hz⟩
    · rw [if_neg hyp]
      have hlt : prev < y := lt_of_le_of_ne (hp y (List.mem_cons_self _ _))
        (fun e => hyp e.symm)
      have := ih hys hy
      refine ⟨List.sorted_cons.mpr ⟨fun b hb => this.2 b hb, this.1⟩, ?_⟩
      intro z hz
      rcases List.mem_cons.mp hz with rfl | hz
      · exact hlt
      · exact lt_trans hlt (this.2 z hz)

theorem dedupAdjacent_sorted {l : List Nat} (hs : List.Sorted (· ≤ ·) l) :
    List.Sorted (· < ·) (dedupAdjacent l) := by
  cases l with
  | nil => simp [dedupAdjacent]
  | cons y ys =>
    rw [dedupAdjacent]
    rcases List.sorted_cons.mp hs with ⟨hy, hys⟩
    have := dedupGo_sorted hys hy
    exact List.sorted_cons.mpr ⟨this.2, this.1⟩

theorem uniquePackedEdges_sorted (records : List (Nat × Nat)) :
    List.Sorted (· < ·) (uniquePackedEdges records) :=
  dedupAdjacent_sorted (List.sorted_insertionSort _ _)

theorem uniquePackedEdges_nodup (records : List (Nat × Nat)) :
    (uniquePackedEdges records).Nodup :=
  (uniquePackedEdges_sorted records).imp (fun h => ne_of_lt h)

theorem mem_uniquePackedEdges {records : List (Nat × Nat)} {p : Nat} :
    p ∈ uniquePackedEdges records ↔
      ∃ r ∈ records, r.1 ≠ r.2 ∧ p = packRecord r := by
  rw [uniquePackedEdges, mem_dedupAdjacent,
    (List.perm_insertionSort _ _).mem_iff, allPackedEdges]
  simp only [List.mem_map, List.mem_filter]
  constructor
  · rintro ⟨r, ⟨hr, hne⟩, rfl⟩
    exact ⟨r, hr, by simpa using hne, rfl⟩
  · rintro ⟨r, hr, hne, rfl⟩
    exact ⟨r, ⟨hr, by simpa using hne⟩, rfl⟩

/-! ## `maxNodeId` bounds -/

theorem maxNodeId_le_foldl (l : List (Nat × Nat)) (m : Nat) :
    m ≤ l.foldl
      (fun m r => if Nat.max r.1 r.2 > m then Nat.max r.1 r.2 else m) m := by
  induction l generalizing m with
  | nil => simp
  | cons r rs ih =>
    simp only [List.foldl_cons]
    refine le_trans ?_ (ih _)
    split <;> omega

theorem le_maxNodeId_foldl {l : List (Nat × Nat)} {r : Nat × Nat}
    (hr : r ∈ l) (m : Nat) :
    Nat.max r.1 r.2 ≤ l.foldl
      (fun m r => if Nat.max r.1 r.2 > m then Nat.max r.1 r.2 else m) m := by
  induction l generalizing m with
  | nil => simp at hr
  | cons s ss ih =>
    simp only [List.foldl_cons]
    rcases List.mem_cons.mp hr with rfl | hr
    · refine le_trans ?_ (maxNodeId_le_foldl ss _)
      split <;> omega
    · exact ih hr _

theorem le_maxNodeId {records : List (Nat × Nat)} {r : Nat × Nat}
    (hr : r ∈ records) : Nat.max r.1 r.2 ≤ maxNodeId records :=
  le_maxNodeId_foldl hr 0

theorem maxNodeId_lt_M32 {records : List (Nat × Nat)}
    (h32 : IdsBounded records) : maxNodeId records < M32 := by
  rw [maxNodeId]
  induction records with
  | nil => simp [M32]
  | cons r rs ih =>
    have hr := h32 r (List.mem_cons_self _ _)
    have h32r : IdsBounded rs := fun s hs => h32 s (List.mem_cons_of_mem _ hs)
    simp only [List.foldl_cons]
    -- restate the invariant over an arbitrary accumulator below the bound
    clear ih
    have key : ∀ (l : List (Nat × Nat)) (m : Nat), IdsBounded l → m < M32 →
        l.foldl (fun m r => if Nat.max r.1 r.2 > m then Nat.max r.1 r.2 else m)
          m < M32 := by
      intro l
      induction l with
      | nil => intro m _ hm; simpa using hm
      | cons s ss ihs =>
        intro m hb hm
        simp only [List.foldl_cons]
        apply ihs _ (fun t ht => hb t (List.mem_cons_of_mem _ ht))
        have := hb s (List.mem_cons_self _ _)
        rcases this with ⟨h1, h2⟩
        split
        · exact max_lt h1 h2
        · exact hm
    apply key _ _ h32r
    split
    · exact max_lt hr.1 hr.2
    · simp [M32]

/-! ## Canonical-edge endpoint facts -/

theorem canonical_endpoints_le {records : List (Nat × Nat)} {p : Nat}
    (hp : p ∈ uniquePackedEdges records) :
    unpackHi p ≤ maxNodeId records ∧ unpackLo p ≤ maxNodeId records := by
  rcases mem_uniquePackedEdges.mp hp with ⟨r, hr, hne, rfl⟩
  have hmax := le_maxNodeId hr
  by_cases hb : Nat.max r.1 r.2 < M32
  · rw [unpackHi_packRecord hb, unpackLo_packRecord hb]
    exact ⟨le_trans min_le_max hmax, hmax⟩
  · push_neg at hb
    have h64 := packRecord_lt r
    exact ⟨le_trans (le_of_lt (unpackHi_lt h64)) (le_trans hb hmax),
      le_trans (le_of_lt (unpackLo_lt _)) (le_trans hb hmax)⟩

theorem canonical_hi_lt_lo {records : List (Nat × Nat)}
    (h32 : IdsBounded records) {p : Nat} (hp : p ∈ uniquePackedEdges records) :
    unpackHi p < unpackLo p := by
  rcases mem_uniquePackedEdges.mp hp with ⟨r, hr, hne, rfl⟩
  have hb : Nat.max r.1 r.2 < M32 := by
    rcases h32 r hr with ⟨h1, h2⟩
    exact max_lt h1 h2
  rw [unpackHi_packRecord hb, unpackLo_packRecord hb]
  exact natMin_lt_natMax hne

theorem canonical_repack {records : List (Nat × Nat)}
    (h32 : IdsBounded records) {p : Nat} (hp : p ∈ uniquePackedEdges records) :
    packRecord (unpackHi p, unpackLo p) = p := by
  rcases mem_uniquePackedEdges.mp hp with ⟨r, hr, hne, rfl⟩
  have hb : Nat.max r.1 r.2 < M32 := by
    rcases h32 r hr with ⟨h1, h2⟩
    exact max_lt h1 h2
  rw [unpackHi_packRecord hb, unpackLo_packRecord hb]
  unfold packRecord
  simp

/-! ## The rank test -/

theorem rltb_irrefl (deg : Nat → Nat) (a : Nat) : rltb deg a a = false := by
  simp [rltb]

theorem rltb_asymm {deg : Nat → Nat} {a b : Nat} (h : rltb deg a b = true) :
    rltb deg b a = false := by
  by_contra hc
  rw [Bool.not_eq_false] at hc
  simp only [rltb, Bool.or_eq_true, Bool.and_eq_true, decide_eq_true_eq]
    at h hc
  omega

theorem rltb_total {deg : Nat → Nat} {a b : Nat} (h : a ≠ b) :
    rltb deg a b = true ∨ rltb deg b a = true := by
  simp only [rltb, Bool.or_eq_true, Bool.and_eq_true, decide_eq_true_eq]
  omega

theorem rltb_trans {deg : Nat → Nat} {a b c : Nat} (h1 : rltb deg a b = true)
    (h2 : rltb deg b c = true) : rltb deg a c = true := by
  simp only [rltb, Bool.or_eq_true, Bool.and_eq_true, decide_eq_true_eq]
    at h1 h2 ⊢
  omega

theorem rltb_ne {deg : Nat → Nat} {a b : Nat} (h : rltb deg a b = true) :
    a ≠ b := by
  rintro rfl
  rw [rltb_irrefl] at h
  exact Bool.false_ne_true h

/-! ## The orientation loop -/

theorem orientStep_apply (deg : Nat → Nat) (adj : Nat → List Nat) (p x : Nat) :
    orientStep deg adj p x =
      if x = targetOf deg p then adj x ++ [pushedOf deg p] else adj x := by
  unfold orientStep targetOf pushedOf
  by_cases h : rltb deg (unpackHi p) (unpackLo p) = true
  · simp only [h, if_true]
    by_cases hx : x = unpackHi p <;> simp [hx]
  · simp only [Bool.not_eq_true] at h
    simp only [h, Bool.false_eq_true, if_false]
    by_cases hx : x = unpackLo p <;> simp [hx]

theorem foldl_orientStep (deg : Nat → Nat) (l : List Nat)
    (adj : Nat → List Nat) (x : Nat) :
    (l.foldl (orientStep deg) adj) x =
      adj x ++ (l.filter (fun p => targetOf deg p == x)).map (pushedOf deg) := by
  induction l generalizing adj with
  | nil => simp
  | cons p ps ih =>
    simp only [List.foldl_cons, ih, List.filter_cons]
    by_cases h : targetOf deg p = x
    · simp [orientStep_apply, h]
    · simp [orientStep_apply, h, Ne.symm h]

theorem orientedAdj_eq (records : List (Nat × Nat)) (x : Nat) :
    orientedAdj records x =
      ((uniquePackedEdges records).filter
        (fun p => targetOf (degrees records) p == x)).map
        (pushedOf (degrees records)) := by
  unfold orientedAdj
  rw [foldl_orientStep]
  simp

theorem targetOf_cases (deg : Nat → Nat) (p : Nat) :
    targetOf deg p = unpackHi p ∨ targetOf deg p = unpackLo p := by
  unfold targetOf
  split <;> simp

theorem pushedOf_cases (deg : Nat → Nat) (p : Nat) :
    pushedOf deg p = unpackHi p ∨ pushedOf deg p = unpackLo p := by
  unfold pushedOf
  split <;> simp

theorem target_pushed_le_maxNodeId {records : List (Nat × Nat)} {p : Nat}
    (deg : Nat → Nat) (hp : p ∈ uniquePackedEdges records) :
    targetOf deg p ≤ maxNodeId records ∧
      pushedOf deg p ≤ maxNodeId records := by
  have h := canonical_endpoints_le hp
  constructor
  · rcases targetOf_cases deg p with h1 | h1 <;> rw [h1]
    · exact h.1
    · exact h.2
  · rcases pushedOf_cases deg p with h1 | h1 <;> rw [h1]
    · exact h.1
    · exact h.2

theorem rltb_target_pushed {records : List (Nat × Nat)}
    (h32 : IdsBounded records) {p : Nat}
    (hp : p ∈ uniquePackedEdges records) (deg : Nat → Nat) :
    rltb deg (targetOf deg p) (pushedOf deg p) = true := by
  have hne : unpackHi p ≠ unpackLo p := ne_of_lt (canonical_hi_lt_lo h32 hp)
  unfold targetOf pushedOf
  by_cases h : rltb deg (unpackHi p) (unpackLo p) = true
  · simp [h]
  · simp only [Bool.not_eq_true] at h
    rcases @rltb_total deg _ _ hne with h1 | h1
    · rw [h1] at h
      exact absurd h (by simp)
    · simpa [h] using h1

theorem repack_target_pushed {records : List (Nat × Nat)}
    (h32 : IdsBounded records) {p : Nat}
    (hp : p ∈ uniquePackedEdges records) (deg : Nat → Nat) :
    packRecord (targetOf deg p, pushedOf deg p) = p := by
  have hr := canonical_repack h32 hp
  unfold targetOf pushedOf
  split
  · exact hr
  · rw [packRecord_comm]
    exact hr

theorem mem_orientedAdj_elim {records : List (Nat × Nat)}
    (h32 : IdsBounded records) {a v : Nat}
    (h : v ∈ orientedAdj records a) :
    adjacentP records a v ∧ rlt records a v ∧
      a ≤ maxNodeId records ∧ v ≤ maxNodeId records := by
  rw [orientedAdj_eq] at h
  rcases List.mem_map.mp h with ⟨p, hpf, rfl⟩
  rcases List.mem_filter.mp hpf with ⟨hp, hpt⟩
  have ht : targetOf (degrees records) p = a := by simpa using hpt
  have hb := target_pushed_le_maxNodeId (degrees records) hp
  have hrlt := rltb_target_pushed h32 hp (degrees records)
  have hre := repack_target_pushed h32 hp (degrees records)
  rw [ht] at hrlt hre hb
  refine ⟨⟨rltb_ne hrlt, ?_⟩, hrlt, hb.1, hb.2⟩
  rw [hre]
  exact hp

theorem mem_orientedAdj_intro {records : List (Nat × Nat)}
    (_h32 : IdsBounded records) {a v : Nat} (ha : a < M32) (hv : v < M32)
    (hadj : adjacentP records a v) (hr : rlt records a v) :
    v ∈ orientedAdj records a := by
  rcases hadj with ⟨hne, hp⟩
  rw [orientedAdj_eq]
  have hmax : Nat.max a v < M32 := max_lt ha hv
  have hhi := unpackHi_packRecord (x := a) (y := v) hmax
  have hlo := unpackLo_packRecord (x := a) (y := v) hmax
  refine List.mem_map.mpr ⟨packRecord (a, v), List.mem_filter.mpr ⟨hp, ?_⟩, ?_⟩
  · simp only [beq_iff_eq]
    unfold targetOf
    rw [hhi, hlo]
    rcases Nat.lt_or_ge a v with h | h
    · rw [natMin_left (le_of_lt h), natMax_right (le_of_lt h)]
      rw [show rltb (degrees records) a v = true from hr]
      simp
    · have h2 : v < a := lt_of_le_of_ne h (Ne.symm hne)
      rw [natMin_right (le_of_lt h2), natMax_left (le_of_lt h2)]
      rw [rltb_asymm hr]
      simp
  · unfold pushedOf
    rw [hhi, hlo]
    rcases Nat.lt_or_ge a v with h | h
    · rw [natMin_left (le_of_lt h), natMax_right (le_of_lt h)]
      rw [show rltb (degrees records) a v = true from hr]
      simp
    · have h2 : v < a := lt_of_le_of_ne h (Ne.symm hne)
      rw [natMin_right (le_of_lt h2), natMax_left (le_of_lt h2)]
      rw [rltb_asymm hr]
      simp

theorem orientedAdj_nodup {records : List (Nat × Nat)}
    (h32 : IdsBounded records) (x : Nat) :
    (orientedAdj records x).Nodup := by
  rw [orientedAdj_eq]
  apply List.Nodup.map_on
  · intro p1 h1 p2 h2 hpush
    rcases List.mem_filter.mp h1 with ⟨hp1, ht1⟩
    rcases List.mem_filter.mp h2 with ⟨hp2, ht2⟩
    have e1 := repack_target_pushed h32 hp1 (degrees records)
    have e2 := repack_target_pushed h32 hp2 (degrees records)
    rw [← e1, ← e2]
    congr 1
    rw [show targetOf (degrees records) p1 = x by simpa using ht1,
      show targetOf (degrees records) p2 = x by simpa using ht2, hpush]
  · exact (uniquePackedEdges_nodup records).filter _

/-! ## Degrees: the `Uint32Array` increments never wrap in range -/

theorem foldl_bumpDeg (l : List Nat) (d : Nat → Nat) (x : Nat)
    (hne : ∀ p ∈ l, unpackHi p ≠ unpackLo p) (hd : d x < M32) :
    (l.foldl (fun d p => bumpDeg (bumpDeg d (unpackHi p)) (unpackLo p)) d) x
      = (d x +
        (l.filter
          (fun p => decide (unpackHi p = x) || decide (unpackLo p = x))).length)
        % M32 := by
  induction l generalizing d with
  | nil =>
    simpa using (Nat.mod_eq_of_lt hd).symm
  | cons p ps ih =>
    have hpne := hne p (List.mem_cons_self _ _)
    have hne2 : ∀ q ∈ ps, unpackHi q ≠ unpackLo q :=
      fun q hq => hne q (List.mem_cons_of_mem _ hq)
    simp only [List.foldl_cons, List.filter_cons]
    have hM : 0 < M32 := by norm_num [M32]
    by_cases hhi : unpackHi p = x
    · have hlo : unpackLo p ≠ x := fun e => hpne (hhi.trans e.symm)
      have hdx : bumpDeg (bumpDeg d (unpackHi p)) (unpackLo p) x
          = (d x + 1) % M32 := by
        unfold bumpDeg
        rw [if_neg (fun e => hlo e.symm), if_pos hhi.symm, hhi]
      rw [ih _ hne2 (by rw [hdx]; exact Nat.mod_lt _ hM), hdx]
      rw [if_pos (by simp [hhi])]
      rw [Nat.mod_add_mod, List.length_cons]
      congr 1
      omega
    · by_cases hlo : unpackLo p = x
      · have hdx : bumpDeg (bumpDeg d (unpackHi p)) (unpackLo p) x
            = (d x + 1) % M32 := by
          unfold bumpDeg
          rw [if_pos hlo.symm,
            if_neg (fun e => hhi ((e.symm).trans hlo)), hlo]
        rw [ih _ hne2 (by rw [hdx]; exact Nat.mod_lt _ hM), hdx]
        rw [if_pos (by simp [hlo])]
        rw [Nat.mod_add_mod, List.length_cons]
        congr 1
        omega
      · have hdx : bumpDeg (bumpDeg d (unpackHi p)) (unpackLo p) x = d x := by
          unfold bumpDeg
          rw [if_neg (fun e => hlo e.symm), if_neg (fun e => hhi e.symm)]
        rw [ih _ hne2 (by rw [hdx]; exact hd), hdx]
        rw [if_neg (by simp [hhi, hlo])]

theorem trueDeg_le_edges (records : List (Nat × Nat)) (x : Nat) :
    trueDeg records x ≤ (uniquePackedEdges records).length :=
  List.length_filter_le _ _

theorem degrees_eq_trueDeg {records : List (Nat × Nat)}
    (h32 : IdsBounded records) (hE : EdgesBounded records) (x : Nat) :
    degrees records x = trueDeg records x := by
  unfold degrees degreesOf
  rw [foldl_bumpDeg _ _ _
    (fun p hp => ne_of_lt (canonical_hi_lt_lo h32 hp)) (by norm_num [M32])]
  rw [Nat.zero_add]
  apply Nat.mod_eq_of_lt
  exact lt_of_le_of_lt (trueDeg_le_edges records x) hE

/-! ## Edge conservation: each canonical edge lands in exactly one row -/

theorem sum_filter_length {α : Type} (l : List α) (f : α → Nat) (n : Nat)
    (hf : ∀ p ∈ l, f p < n) :
    ∑ i ∈ Finset.range n, (l.filter (fun p => f p == i)).length
      = l.length := by
  induction l with
  | nil => simp
  | cons p ps ih =>
    have hp := hf p (List.mem_cons_self _ _)
    have hps : ∀ q ∈ ps, f q < n := fun q hq => hf q (List.mem_cons_of_mem _ hq)
    simp only [List.filter_cons]
    have : ∀ i : Nat,
        (if f p == i then p :: List.filter (fun q => f q == i) ps
          else List.filter (fun q => f q == i) ps).length
        = (if f p = i then 1 else 0) +
          (List.filter (fun q => f q == i) ps).length := by
      intro i
      by_cases h : f p = i <;> simp [h, Nat.add_comm]
    simp only [this, Finset.sum_add_distrib, ih hps]
    have hsum : (∑ i ∈ Finset.range n, if f p = i then 1 else 0) = 1 := by
      rw [Finset.sum_ite_eq (Finset.range n) (f p) (fun _ => 1)]
      simp [hp]
    rw [hsum, List.length_cons]
    omega

theorem sum_row_lengths (records : List (Nat × Nat)) :
    ∑ i ∈ Finset.range (nodeCountForAllocation records),
      (orientedAdj records i).length
      = (uniquePackedEdges records).length := by
  have : ∀ i, (orientedAdj records i).length =
      ((uniquePackedEdges records).filter
        (fun p => targetOf (degrees records) p == i)).length := by
    intro i
    rw [orientedAdj_eq, List.length_map]
  simp only [this]
  apply sum_filter_length
  intro p hp
  have := (target_pushed_le_maxNodeId (degrees records) hp).1
  unfold nodeCountForAllocation
  omega

/-! ## CSR characterization -/

theorem sortedRow_length (records : List (Nat × Nat)) (i : Nat) :
    (sortedRow records i).length = (orientedAdj records i).length :=
  (List.perm_insertionSort _ _).length_eq

theorem csrFold_succ (records : List (Nat × Nat)) (n : Nat) :
    csrFold records (n + 1) =
      ((csrFold records n).1 ++ [(csrFold records n).2.2 % M32],
        (csrFold records n).2.1 ++ sortedRow records n,
        (csrFold records n).2.2 + (sortedRow records n).length) := by
  unfold csrFold
  rw [List.range_succ, List.foldl_append]
  simp

theorem csrFold_cur (records : List (Nat × Nat)) (n : Nat) :
    (csrFold records n).2.2
      = ∑ i ∈ Finset.range n, (sortedRow records i).length := by
  induction n with
  | zero => simp [csrFold]
  | succ n ih => rw [csrFold_succ, Finset.sum_range_succ, ← ih]

theorem csrFold_flat (records : List (Nat × Nat)) (n : Nat) :
    (csrFold records n).2.1
      = ((List.range n).map (sortedRow records)).flatten := by
  induction n with
  | zero => simp [csrFold]
  | succ n ih =>
    rw [csrFold_succ, List.range_succ, List.map_append, List.flatten_append,
      ← ih]
    simp

theorem csrFold_offs (records : List (Nat × Nat)) (n : Nat) :
    (csrFold records n).1
      = (List.range n).map
        (fun i =>
          (∑ j ∈ Finset.range i, (sortedRow records j).length) % M32) := by
  induction n with
  | zero => simp [csrFold]
  | succ n ih =>
    rw [csrFold_succ, List.range_succ, List.map_append, ← ih, csrFold_cur]
    simp

theorem adjOffsets_eq (records : List (Nat × Nat)) :
    adjOffsets records
      = (List.range (nodeCountForAllocation records + 1)).map
        (fun i =>
          (∑ j ∈ Finset.range i, (sortedRow records j).length) % M32) := by
  unfold adjOffsets
  rw [csrFold_offs, csrFold_cur, List.range_succ, List.map_append]
  simp

theorem adjData_eq (records : List (Nat × Nat)) :
    adjData records
      = ((List.range (nodeCountForAllocation records)).map
          (sortedRow records)).flatten := by
  unfold adjData
  exact csrFold_flat records _

theorem getD_map_range {f : Nat → Nat} {m i : Nat} (h : i < m) :
    ((List.range m).map f).getD i 0 = f i := by
  simp [List.getD_eq_getElem?_getD, List.getElem?_map, List.getElem?_range h]

theorem getD_map_range_list {f : Nat → List Nat} {m i : Nat} (h : i < m) :
    ((List.range m).map f).getD i [] = f i := by
  simp [List.getD_eq_getElem?_getD, List.getElem?_map, List.getElem?_range h]

theorem adjOffsets_length (records : List (Nat × Nat)) :
    (adjOffsets records).length = nodeCountForAllocation records + 1 := by
  rw [adjOffsets_eq]
  simp

theorem adjData_length (records : List (Nat × Nat)) :
    (adjData records).length = (uniquePackedEdges records).length := by
  rw [adjData_eq, List.length_flatten, List.map_map]
  have h1 : ∀ n : Nat,
      ((List.range n).map (List.length ∘ sortedRow records)).sum
        = ∑ i ∈ Finset.range n, (orientedAdj records i).length := by
    intro n
    induction n with
    | zero => simp
    | succ n ih =>
      rw [List.range_succ, List.map_append, List.sum_append,
        Finset.sum_range_succ, ih]
      simp [sortedRow_length]
  rw [h1, sum_row_lengths]

theorem adjOffsets_getD {records : List (Nat × Nat)} {i : Nat}
    (h : i ≤ nodeCountForAllocation records) :
    (adjOffsets records).getD i 0
      = (∑ j ∈ Finset.range i, (sortedRow records j).length) % M32 := by
  rw [adjOffsets_eq]
  exact getD_map_range (by omega)

theorem partialSum_le_total (records : List (Nat × Nat)) {i : Nat}
    (h : i ≤ nodeCountForAllocation records) :
    ∑ j ∈ Finset.range i, (sortedRow records j).length
      ≤ (uniquePackedEdges records).length := by
  have hs : ∑ j ∈ Finset.range i, (sortedRow records j).length
      ≤ ∑ j ∈ Finset.range (nodeCountForAllocation records),
        (sortedRow records j).length := by
    apply Finset.sum_le_sum_of_subset
    intro x hx
    simp only [Finset.mem_range] at hx ⊢
    omega
  calc ∑ j ∈ Finset.range i, (sortedRow records j).length
      ≤ ∑ j ∈ Finset.range (nodeCountForAllocation records),
        (sortedRow records j).length := hs
    _ = ∑ j ∈ Finset.range (nodeCountForAllocation records),
        (orientedAdj records j).length :=
        Finset.sum_congr rfl (fun j _ => sortedRow_length records j)
    _ = (uniquePackedEdges records).length := sum_row_lengths records

theorem adjOffsets_getD_of_bounded {records : List (Nat × Nat)}
    (hE : EdgesBounded records) {i : Nat}
    (h : i ≤ nodeCountForAllocation records) :
    (adjOffsets records).getD i 0
      = ∑ j ∈ Finset.range i, (sortedRow records j).length := by
  rw [adjOffsets_getD h]
  exact Nat.mod_eq_of_lt (lt_of_le_of_lt (partialSum_le_total records h) hE)

/-! ## Slices of the flat array -/

theorem sliceD_empty {data : List Nat} {s e : Nat} (h : e ≤ s) :
    sliceD data s e = [] := by
  apply List.drop_eq_nil_of_le
  rw [List.length_take]
  omega

theorem sliceD_cons {data : List Nat} {s e : Nat} (hse : s < e)
    (he : e ≤ data.length) :
    sliceD data s e = data.getD s 0 :: sliceD data (s + 1) e := by
  unfold sliceD
  have hlt : s < (data.take e).length := by
    rw [List.length_take]
    omega
  rw [List.drop_eq_getElem_cons hlt, List.getElem_take,
    List.getD_eq_getElem data 0 (by omega)]

theorem sliceD_length {data : List Nat} {s e : Nat} (he : e ≤ data.length) :
    (sliceD data s e).length = e - s := by
  unfold sliceD
  rw [List.length_drop, List.length_take]
  omega

/-! ## The two-pointer merge computes a set-intersection size -/

theorem interCount_nil_left (ys : List Nat) : interCount [] ys = 0 := by
  cases ys <;> simp [interCount]

theorem interCount_nil_right (xs : List Nat) : interCount xs [] = 0 := by
  cases xs <;> simp [interCount]

theorem interGo_eq_interCount {data : List Nat} :
    ∀ (fuel i iEnd j jEnd : Nat), (iEnd - i) + (jEnd - j) ≤ fuel →
      iEnd ≤ data.length → jEnd ≤ data.length →
      interGo data fuel i iEnd j jEnd
        = interCount (sliceD data i iEnd) (sliceD data j jEnd) := by
  intro fuel
  induction fuel with
  | zero =>
    intro i iEnd j jEnd hf hi hj
    have h1 : sliceD data i iEnd = [] := sliceD_empty (by omega)
    rw [interGo, h1, interCount_nil_left]
  | succ fuel ih =>
    intro i iEnd j jEnd hf hi hj
    rw [interGo]
    by_cases hc : i < iEnd ∧ j < jEnd
    · rw [if_pos hc]
      rw [sliceD_cons hc.1 hi, sliceD_cons hc.2 hj]
      rw [interCount]
      by_cases heq : data.getD i 0 = data.getD j 0
      · rw [if_pos heq, if_pos heq]
        rw [ih (i + 1) iEnd (j + 1) jEnd (by omega) hi hj]
      · rw [if_neg heq, if_neg heq]
        by_cases hlt : data.getD i 0 < data.getD j 0
        · rw [if_pos hlt, if_pos hlt,
            ih (i + 1) iEnd j jEnd (by omega) hi hj, sliceD_cons hc.2 hj]
        · rw [if_neg hlt, if_neg hlt,
            ih i iEnd (j + 1) jEnd (by omega) hi hj, sliceD_cons hc.1 hi]
    · rw [if_neg hc]
      rcases Decidable.not_and_iff_or_not.mp hc with h | h
      · rw [sliceD_empty (by omega), interCount_nil_left]
      · rw [sliceD_empty (e := jEnd) (by omega), interCount_nil_right]

theorem interCount_card_go :
    ∀ (n : Nat) (xs ys : List Nat), xs.length + ys.length ≤ n →
      List.Sorted (· < ·) xs → List.Sorted (· < ·) ys →
      interCount xs ys = (xs.toFinset ∩ ys.toFinset).card := by
  intro n
  induction n with
  | zero =>
    intro xs ys hn _ _
    have hx : xs = [] := List.eq_nil_of_length_eq_zero (by omega)
    subst hx
    simp [interCount]
  | succ n ih =>
    intro xs ys hn hx hy
    match xs, ys with
    | [], ys => simp [interCount]
    | x :: xs, [] => simp [interCount]
    | x :: xs, y :: ys =>
      rcases List.sorted_cons.mp hx with ⟨hxall, hxs⟩
      rcases List.sorted_cons.mp hy with ⟨hyall, hys⟩
      simp only [List.length_cons] at hn
      rw [interCount]
      by_cases heq : x = y
      · rw [if_pos heq]
        subst heq
        have hxa : x ∉ xs.toFinset := by
          simp only [List.mem_toFinset]
          intro hmem
          exact lt_irrefl x (hxall x hmem)
        have hins : insert x xs.toFinset ∩ insert x ys.toFinset
            = insert x (xs.toFinset ∩ ys.toFinset) := by
          ext z
          simp only [Finset.mem_inter, Finset.mem_insert]
          tauto
        rw [List.toFinset_cons, List.toFinset_cons, hins,
          Finset.card_insert_of_not_mem (by
            simp only [Finset.mem_inter]
            rintro ⟨h1, _⟩
            exact hxa h1),
          ih xs ys (by omega) hxs hys]
      · rw [if_neg heq]
        by_cases hlt : x < y
        · rw [if_pos hlt]
          have hxn : x ∉ (y :: ys).toFinset := by
            simp only [List.toFinset_cons, Finset.mem_insert,
              List.mem_toFinset]
            rintro (rfl | hmem)
            · exact heq rfl
            · exact lt_irrefl x (lt_trans hlt (hyall x hmem))
          rw [List.toFinset_cons (a := x),
            Finset.insert_inter_of_not_mem hxn,
            ih xs (y :: ys) (by simp; omega) hxs hy]
        · rw [if_neg hlt]
          have hyn : y ∉ (x :: xs).toFinset := by
            simp only [List.toFinset_cons, Finset.mem_insert,
              List.mem_toFinset]
            rintro (rfl | hmem)
            · exact heq rfl
            · exact hlt (hxall y hmem)
          rw [List.toFinset_cons (a := y),
            Finset.inter_insert_of_not_mem hyn,
            ih (x :: xs) ys (by simp; omega) hx hys]

theorem interCount_card {xs ys : List Nat} (hx : List.Sorted (· < ·) xs)
    (hy : List.Sorted (· < ·) ys) :
    interCount xs ys = (xs.toFinset ∩ ys.toFinset).card :=
  interCount_card_go (xs.length + ys.length) xs ys le_rfl hx hy

theorem count_intersection_card {data : List Nat} {i iEnd j jEnd : Nat}
    (hi : iEnd ≤ data.length) (hj : jEnd ≤ data.length)
    (hx : List.Sorted (· < ·) (sliceD data i iEnd))
    (hy : List.Sorted (· < ·) (sliceD data j jEnd)) :
    count_intersection data i iEnd j jEnd
      = ((sliceD data i iEnd).toFinset ∩ (sliceD data j jEnd).toFinset).card
    := by
  unfold count_intersection
  rw [interGo_eq_interCount _ i iEnd j jEnd le_rfl hi hj]
  exact interCount_card hx hy

/-! ## Strictly ascending rows -/

theorem sortedRow_perm (records : List (Nat × Nat)) (i : Nat) :
    (sortedRow records i).Perm (orientedAdj records i) :=
  List.perm_insertionSort _ _

theorem sortedRow_nodup {records : List (Nat × Nat)}
    (h32 : IdsBounded records) (i : Nat) : (sortedRow records i).Nodup :=
  (sortedRow_perm records i).nodup_iff.mpr (orientedAdj_nodup h32 i)

theorem sortedRow_sorted_lt {records : List (Nat × Nat)}
    (h32 : IdsBounded records) (i : Nat) :
    List.Sorted (· < ·) (sortedRow records i) :=
  List.Sorted.lt_of_le (List.sorted_insertionSort _ _) (sortedRow_nodup h32 i)

theorem sortedRow_toFinset (records : List (Nat × Nat)) (i : Nat) :
    (sortedRow records i).toFinset = (orientedAdj records i).toFinset :=
  List.toFinset_eq_of_perm _ _ (sortedRow_perm records i)

/-! ## Extracting a row from the flat array -/

theorem sliceD_flatten (L : List (List Nat)) :
    ∀ i, i < L.length →
      sliceD L.flatten (∑ j ∈ Finset.range i, (L.getD j []).length)
        (∑ j ∈ Finset.range (i + 1), (L.getD j []).length) = L.getD i [] := by
  induction L with
  | nil =>
    intro i hi
    simp at hi
  | cons A L ih =>
    intro i hi
    cases i with
    | zero =>
      rw [show ∑ j ∈ Finset.range 0, ((A :: L).getD j []).length = 0 by simp]
      rw [show ∑ j ∈ Finset.range (0 + 1), ((A :: L).getD j []).length
        = A.length by simp]
      rw [List.getD_cons_zero, List.flatten_cons]
      unfold sliceD
      rw [List.drop_zero, List.take_left]
    | succ i =>
      have hiL : i < L.length := by simpa using hi
      have hs : ∀ m : Nat, ∑ j ∈ Finset.range (m + 1),
          ((A :: L).getD j []).length
          = A.length + ∑ j ∈ Finset.range m, (L.getD j []).length := by
        intro m
        rw [Finset.sum_range_succ']
        simp only [List.getD_cons_succ, List.getD_cons_zero]
        omega
      rw [hs, hs, List.getD_cons_succ, List.flatten_cons]
      unfold sliceD
      rw [Nat.add_comm A.length
        (∑ j ∈ Finset.range (i + 1), (L.getD j []).length)]
      rw [show ∑ j ∈ Finset.range (i + 1), (L.getD j []).length + A.length
        = A.length + ∑ j ∈ Finset.range (i + 1), (L.getD j []).length by omega]
      rw [List.take_append, List.drop_append]
      exact ih i hiL

theorem adjData_slice {records : List (Nat × Nat)}
    (hE : EdgesBounded records) {i : Nat}
    (hi : i < nodeCountForAllocation records) :
    sliceD (adjData records) ((adjOffsets records).getD i 0)
      ((adjOffsets records).getD (i + 1) 0) = sortedRow records i := by
  rw [adjOffsets_getD_of_bounded hE (by omega),
    adjOffsets_getD_of_bounded hE (by omega), adjData_eq]
  have hlen : ((List.range (nodeCountForAllocation records)).map
      (sortedRow records)).length = nodeCountForAllocation records := by
    simp
  have hgetD : ∀ j, j < nodeCountForAllocation records →
      ((List.range (nodeCountForAllocation records)).map
        (sortedRow records)).getD j [] = sortedRow records j :=
    fun j hj => getD_map_range_list hj
  have h := sliceD_flatten
    ((List.range (nodeCountForAllocation records)).map (sortedRow records)) i
    (by rw [hlen]; exact hi)
  rw [hgetD i hi] at h
  rw [← h]
  congr 1
  · exact Finset.sum_congr rfl (fun j hj => by
      rw [hgetD j (by
        simp only [Finset.mem_range] at hj
        omega)])
  · exact Finset.sum_congr rfl (fun j hj => by
      rw [hgetD j (by
        simp only [Finset.mem_range] at hj
        omega)])

/-! ## The kernel edge loop as a sum over the row -/

theorem edgeLoopGo_eq (offs data : List Nat) (uS uE : Nat) :
    ∀ (fuel i iEnd : Nat), iEnd - i ≤ fuel → iEnd ≤ data.length →
      edgeLoopGo offs data uS uE fuel i iEnd
        = ((sliceD data i iEnd).map
          (fun v => count_intersection data uS uE (offs.getD v 0)
            (offs.getD (v + 1) 0))).sum := by
  intro fuel
  induction fuel with
  | zero =>
    intro i iEnd hf hlen
    rw [edgeLoopGo, sliceD_empty (by omega)]
    simp
  | succ fuel ih =>
    intro i iEnd hf hlen
    rw [edgeLoopGo]
    by_cases hc : i < iEnd
    · rw [if_pos hc, sliceD_cons hc hlen, List.map_cons, List.sum_cons,
        ih (i + 1) iEnd (by omega) hlen]
    · rw [if_neg hc, sliceD_empty (by omega)]
      simp

theorem kernelMain_oob {offs data : List Nat} {u : Nat}
    (h : offs.length - 1 ≤ u) : kernelMain offs data u = 0 := by
  unfold kernelMain
  rw [if_pos h]

theorem uE_le_length {records : List (Nat × Nat)} (hE : EdgesBounded records)
    {u : Nat} (hu : u + 1 ≤ nodeCountForAllocation records) :
    (adjOffsets records).getD (u + 1) 0 ≤ (adjData records).length := by
  rw [adjOffsets_getD_of_bounded hE hu, adjData_length]
  exact partialSum_le_total records hu

theorem kernelMain_eq {records : List (Nat × Nat)}
    (h32 : IdsBounded records) (hE : EdgesBounded records) {u : Nat}
    (hu : u < nodeCountForAllocation records) :
    kernelMain (adjOffsets records) (adjData records) u
      = ((sortedRow records u).map
        (fun v => ((orientedAdj records u).toFinset ∩
          (orientedAdj records v).toFinset).card)).sum := by
  unfold kernelMain kernelEdgeLoop
  rw [adjOffsets_length]
  rw [if_neg (by omega)]
  rw [edgeLoopGo_eq _ _ _ _ _ _ _ le_rfl (uE_le_length hE (by omega))]
  rw [adjData_slice hE hu]
  apply congrArg
  apply List.map_congr_left
  intro v hv
  have hvrow : v ∈ orientedAdj records u :=
    (sortedRow_perm records u).mem_iff.mp hv
  have hvle := (mem_orientedAdj_elim h32 hvrow).2.2.2
  have hvN : v + 1 ≤ nodeCountForAllocation records := by
    unfold nodeCountForAllocation
    omega
  rw [count_intersection_card (uE_le_length hE (by omega))
    (uE_le_length hE hvN)
    (by rw [adjData_slice hE hu]; exact sortedRow_sorted_lt h32 u)
    (by rw [adjData_slice hE (by omega)]; exact sortedRow_sorted_lt h32 v)]
  rw [adjData_slice hE hu, adjData_slice hE (by omega),
    sortedRow_toFinset, sortedRow_toFinset]

/-! ## From list sums to Finset sums -/

theorem sum_map_toFinset {l : List Nat} (h : l.Nodup) (f : Nat → Nat) :
    (l.map f).sum = ∑ x ∈ l.toFinset, f x := by
  induction l with
  | nil => simp
  | cons x xs ih =>
    rcases List.nodup_cons.mp h with ⟨hx, hxs⟩
    rw [List.map_cons, List.sum_cons, List.toFinset_cons,
      Finset.sum_insert (by simpa using hx), ih hxs]

theorem nodeCount_le_dispatchSize (n : Nat) : n ≤ dispatchSize n := by
  unfold dispatchSize
  have h1 := Nat.div_add_mod (n + 255) 256
  have h2 : (n + 255) % 256 < 256 := Nat.mod_lt _ (by norm_num)
  omega

theorem kernelSum_eq {records : List (Nat × Nat)}
    (h32 : IdsBounded records) (hE : EdgesBounded records) :
    kernelSum records
      = ∑ u ∈ Finset.range (nodeCountForAllocation records),
        ∑ v ∈ (orientedAdj records u).toFinset,
          ((orientedAdj records u).toFinset ∩
            (orientedAdj records v).toFinset).card := by
  unfold kernelSum
  rw [← Finset.sum_subset
    (Finset.range_subset.mpr
      (nodeCount_le_dispatchSize (nodeCountForAllocation records)))
    (fun x _ hx => kernelMain_oob (by
      rw [adjOffsets_length]
      simp only [Finset.mem_range] at hx
      omega))]
  apply Finset.sum_congr rfl
  intro u hu
  simp only [Finset.mem_range] at hu
  rw [kernelMain_eq h32 hE hu, sum_map_toFinset (sortedRow_nodup h32 u),
    sortedRow_toFinset]

/-! ## The kernel sum counts the kernel triples -/

theorem row_subset_range {records : List (Nat × Nat)}
    (h32 : IdsBounded records) (x : Nat) :
    (orientedAdj records x).toFinset ⊆
      Finset.range (nodeCountForAllocation records) := by
  intro y hy
  rw [List.mem_toFinset] at hy
  have := (mem_orientedAdj_elim h32 hy).2.2.2
  rw [Finset.mem_range]
  unfold nodeCountForAllocation
  omega

theorem card_kernelTriples {records : List (Nat × Nat)}
    (h32 : IdsBounded records) :
    (kernelTriples records).card
      = ∑ u ∈ Finset.range (nodeCountForAllocation records),
        ∑ v ∈ (orientedAdj records u).toFinset,
          ((orientedAdj records u).toFinset ∩
            (orientedAdj records v).toFinset).card := by
  unfold kernelTriples
  rw [Finset.card_filter, Finset.sum_product]
  apply Finset.sum_congr rfl
  intro u _
  rw [Finset.sum_product]
  have step1 : ∀ v,
      (∑ w ∈ Finset.range (nodeCountForAllocation records),
        if v ∈ (orientedAdj records u).toFinset ∧
          w ∈ (orientedAdj records u).toFinset ∧
          w ∈ (orientedAdj records v).toFinset then 1 else 0)
      = if v ∈ (orientedAdj records u).toFinset then
          ((orientedAdj records u).toFinset ∩
            (orientedAdj records v).toFinset).card else 0 := by
    intro v
    by_cases hv : v ∈ (orientedAdj records u).toFinset
    · rw [if_pos hv]
      have hcong : (∑ w ∈ Finset.range (nodeCountForAllocation records),
          if v ∈ (orientedAdj records u).toFinset ∧
            w ∈ (orientedAdj records u).toFinset ∧
            w ∈ (orientedAdj records v).toFinset then 1 else 0)
          = ∑ w ∈ Finset.range (nodeCountForAllocation records),
            if w ∈ (orientedAdj records u).toFinset ∩
              (orientedAdj records v).toFinset then 1 else 0 := by
        apply Finset.sum_congr rfl
        intro w _
        by_cases hw : w ∈ (orientedAdj records u).toFinset ∩
            (orientedAdj records v).toFinset
        · rw [if_pos hw, if_pos ⟨hv, (Finset.mem_inter.mp hw).1,
            (Finset.mem_inter.mp hw).2⟩]
        · rw [if_neg hw, if_neg (fun hc =>
            hw (Finset.mem_inter.mpr ⟨hc.2.1, hc.2.2⟩))]
      rw [hcong, Finset.sum_ite_mem, Finset.inter_eq_right.mpr
        (subset_trans Finset.inter_subset_left (row_subset_range h32 u)),
        ← Finset.card_eq_sum_ones]
    · rw [if_neg hv]
      apply Finset.sum_eq_zero
      intro w _
      rw [if_neg (fun hc => hv hc.1)]
  rw [Finset.sum_congr rfl (fun v _ => step1 v)]
  rw [Finset.sum_ite_mem]
  rw [Finset.inter_eq_right.mpr (row_subset_range h32 u)]

theorem kernelTriples_eq_sorted {records : List (Nat × Nat)}
    (h32 : IdsBounded records) :
    kernelTriples records
      = sortedTriples (nodeCountForAllocation records) (rlt records)
        (adjacentP records) := by
  unfold kernelTriples sortedTriples
  apply Finset.filter_congr
  intro t ht
  rw [Finset.mem_product, Finset.mem_product] at ht
  rcases ht with ⟨h1, h2, h3⟩
  rw [Finset.mem_range] at h1 h2 h3
  have hmax : maxNodeId records < M32 := maxNodeId_lt_M32 h32
  have hu : t.1 < M32 := by
    unfold nodeCountForAllocation at h1
    omega
  have hv : t.2.1 < M32 := by
    unfold nodeCountForAllocation at h2
    omega
  have hw : t.2.2 < M32 := by
    unfold nodeCountForAllocation at h3
    omega
  simp only [List.mem_toFinset]
  constructor
  · rintro ⟨m1, m2, m3⟩
    have e1 := mem_orientedAdj_elim h32 m1
    have e2 := mem_orientedAdj_elim h32 m2
    have e3 := mem_orientedAdj_elim h32 m3
    exact ⟨e1.2.1, e3.2.1, e2.2.1, e1.1, e2.1, e3.1⟩
  · rintro ⟨r1, r2, r3, a1, a2, a3⟩
    exact ⟨mem_orientedAdj_intro h32 hu hv a1 r1,
      mem_orientedAdj_intro h32 hu hw a2 r3,
      mem_orientedAdj_intro h32 hv hw a3 r2⟩

theorem kernelSum_eq_cardSorted {records : List (Nat × Nat)}
    (h32 : IdsBounded records) (hE : EdgesBounded records) :
    kernelSum records
      = (sortedTriples (nodeCountForAllocation records) (rlt records)
        (adjacentP records)).card := by
  rw [kernelSum_eq h32 hE, ← card_kernelTriples h32,
    kernelTriples_eq_sorted h32]

/-! ## Sorted triples biject with triangle sets -/

theorem mem_sortedTriples {n : Nat} {rel adj : Nat → Nat → Prop}
    [DecidableRel rel] [DecidableRel adj] {t : Nat × Nat × Nat} :
    t ∈ sortedTriples n rel adj ↔
      (t.1 < n ∧ t.2.1 < n ∧ t.2.2 < n) ∧
        rel t.1 t.2.1 ∧ rel t.2.1 t.2.2 ∧ rel t.1 t.2.2 ∧
        adj t.1 t.2.1 ∧ adj t.1 t.2.2 ∧ adj t.2.1 t.2.2 := by
  unfold sortedTriples
  rw [Finset.mem_filter, Finset.mem_product, Finset.mem_product]
  simp only [Finset.mem_range]

theorem rel_ne {rel : Nat → Nat → Prop} (hirr : ∀ a, ¬ rel a a) {a b : Nat}
    (h : rel a b) : a ≠ b := by
  rintro rfl
  exact hirr a h

theorem sort3_exists {rel : Nat → Nat → Prop}
    (htot : ∀ a b, a ≠ b → rel a b ∨ rel b a)
    (htrans : ∀ a b c, rel a b → rel b c → rel a c)
    {x y z : Nat} (hxy : x ≠ y) (hxz : x ≠ z) (hyz : y ≠ z) :
    ∃ p q r : Nat, rel p q ∧ rel q r ∧ rel p r ∧
      ({p, q, r} : Finset Nat) = {x, y, z} := by
  rcases htot x y hxy with h1 | h1
  · rcases htot y z hyz with h2 | h2
    · exact ⟨x, y, z, h1, h2, htrans x y z h1 h2, rfl⟩
    · rcases htot x z hxz with h3 | h3
      · refine ⟨x, z, y, h3, h2, h1, ?_⟩
        ext a
        simp only [Finset.mem_insert, Finset.mem_singleton]
        tauto
      · refine ⟨z, x, y, h3, h1, h2, ?_⟩
        ext a
        simp only [Finset.mem_insert, Finset.mem_singleton]
        tauto
  · rcases htot x z hxz with h2 | h2
    · refine ⟨y, x, z, h1, h2, htrans y x z h1 h2, ?_⟩
      ext a
      simp only [Finset.mem_insert, Finset.mem_singleton]
      tauto
    · rcases htot y z hyz with h3 | h3
      · refine ⟨y, z, x, h3, h2, h1, ?_⟩
        ext a
        simp only [Finset.mem_insert, Finset.mem_singleton]
        tauto
      · refine ⟨z, y, x, h3, h1, h2, ?_⟩
        ext a
        simp only [Finset.mem_insert, Finset.mem_singleton]
        tauto

theorem card_sortedTriples_eq (n : Nat) (rel adj : Nat → Nat → Prop)
    [DecidableRel rel] [DecidableRel adj]
    (hirr : ∀ a, ¬ rel a a)
    (hasym : ∀ a b, rel a b → ¬ rel b a)
    (htot : ∀ a b, a ≠ b → rel a b ∨ rel b a)
    (htrans : ∀ a b c, rel a b → rel b c → rel a c)
    (hsymm : ∀ a b, adj a b → adj b a) :
    (sortedTriples n rel adj).card = (triangleSets n adj).card := by
  apply Finset.card_bij (fun t _ => ({t.1, t.2.1, t.2.2} : Finset Nat))
  · -- the image of a sorted triple is a triangle set
    intro t ht
    rcases mem_sortedTriples.mp ht with
      ⟨⟨hb1, hb2, hb3⟩, r1, r2, r3, a1, a2, a3⟩
    unfold triangleSets
    rw [Finset.mem_filter, Finset.mem_powersetCard]
    refine ⟨⟨?_, ?_⟩, ?_⟩
    · rw [Finset.insert_subset_iff, Finset.insert_subset_iff,
        Finset.singleton_subset_iff]
      simp only [Finset.mem_range]
      exact ⟨hb1, hb2, hb3⟩
    · exact Finset.card_eq_three.mpr
        ⟨t.1, t.2.1, t.2.2, rel_ne hirr r1, rel_ne hirr r3,
          rel_ne hirr r2, rfl⟩
    · intro a ha b hb hab
      simp only [Finset.mem_insert, Finset.mem_singleton] at ha hb
      rcases ha with rfl | rfl | rfl <;> rcases hb with rfl | rfl | rfl <;>
        first
          | exact absurd rfl hab
          | assumption
          | exact hsymm _ _ (by assumption)
  · -- injectivity: a set determines its rel-sorted enumeration
    intro t1 ht1 t2 ht2 hset
    rcases mem_sortedTriples.mp ht1 with ⟨_, r11, r12, r13, _⟩
    rcases mem_sortedTriples.mp ht2 with ⟨_, r21, r22, r23, _⟩
    have hm : ∀ a : Nat, a ∈ ({t1.1, t1.2.1, t1.2.2} : Finset Nat)
        ↔ a ∈ ({t2.1, t2.2.1, t2.2.2} : Finset Nat) := fun a => by
      rw [hset]
    simp only [Finset.mem_insert, Finset.mem_singleton] at hm
    have hu : t1.1 = t2.1 := by
      rcases (hm t1.1).mp (Or.inl rfl) with h | h | h
      · exact h
      · exfalso
        rw [← h] at r21
        rcases (hm t2.1).mpr (Or.inl rfl) with h2 | h2 | h2
        · rw [h2] at r21
          exact hirr _ r21
        · rw [h2] at r21
          exact hasym _ _ r11 r21
        · rw [h2] at r21
          exact hasym _ _ r13 r21
      · exfalso
        rw [← h] at r23
        rcases (hm t2.1).mpr (Or.inl rfl) with h2 | h2 | h2
        · rw [h2] at r23
          exact hirr _ r23
        · rw [h2] at r23
          exact hasym _ _ r11 r23
        · rw [h2] at r23
          exact hasym _ _ r13 r23
    have hv : t1.2.1 = t2.2.1 := by
      rcases (hm t1.2.1).mp (Or.inr (Or.inl rfl)) with h | h | h
      · exfalso
        rw [← hu] at h
        rw [h] at r11
        exact hirr _ r11
      · exact h
      · exfalso
        rcases (hm t2.2.1).mpr (Or.inr (Or.inl rfl)) with h2 | h2 | h2
        · rw [hu] at h2
          rw [h2] at r21
          exact hirr _ r21
        · have h3 : t2.2.1 = t2.2.2 := h2.trans h
          rw [h3] at r22
          exact hirr _ r22
        · rw [h, ← h2] at r12
          exact hasym _ _ r22 r12
    have hw : t1.2.2 = t2.2.2 := by
      rcases (hm t1.2.2).mp (Or.inr (Or.inr rfl)) with h | h | h
      · exfalso
        rw [← hu] at h
        rw [h] at r13
        exact hirr _ r13
      · exfalso
        rw [← hv] at h
        rw [h] at r12
        exact hirr _ r12
      · exact h
    exact Prod.ext hu (Prod.ext hv hw)
  · -- surjectivity: every triangle set arises from its sorted enumeration
    intro S hS
    unfold triangleSets at hS
    rw [Finset.mem_filter, Finset.mem_powersetCard] at hS
    rcases hS with ⟨⟨hsub, hcard⟩, hadj⟩
    rcases Finset.card_eq_three.mp hcard with ⟨x, y, z, hxy, hxz, hyz, rfl⟩
    rcases sort3_exists htot htrans hxy hxz hyz with
      ⟨p, q, r, hpq, hqr, hpr, hperm⟩
    have hmemS : ∀ a : Nat, a ∈ ({p, q, r} : Finset Nat) →
        a ∈ ({x, y, z} : Finset Nat) := fun a ha => hperm ▸ ha
    have hp : p ∈ ({x, y, z} : Finset Nat) := hmemS p (by simp)
    have hq : q ∈ ({x, y, z} : Finset Nat) := hmemS q (by simp)
    have hr : r ∈ ({x, y, z} : Finset Nat) := hmemS r (by simp)
    refine ⟨(p, q, r), mem_sortedTriples.mpr ⟨⟨?_, ?_, ?_⟩, hpq, hqr, hpr,
      hadj p hp q hq (rel_ne hirr hpq),
      hadj p hp r hr (rel_ne hirr hpr),
      hadj q hq r hr (rel_ne hirr hqr)⟩, hperm⟩
    · have := hsub hp
      rwa [Finset.mem_range] at this
    · have := hsub hq
      rwa [Finset.mem_range] at this
    · have := hsub hr
      rwa [Finset.mem_range] at this

/-! ## The main counting identity -/

theorem rlt_irrefl (records : List (Nat × Nat)) (a : Nat) :
    ¬ rlt records a a := by
  unfold rlt
  rw [rltb_irrefl]
  exact Bool.false_ne_true

theorem rlt_asymm (records : List (Nat × Nat)) (a b : Nat)
    (h : rlt records a b) : ¬ rlt records b a := by
  unfold rlt at h ⊢
  rw [rltb_asymm h]
  exact Bool.false_ne_true

theorem rlt_total (records : List (Nat × Nat)) (a b : Nat) (h : a ≠ b) :
    rlt records a b ∨ rlt records b a :=
  rltb_total h

theorem rlt_trans (records : List (Nat × Nat)) (a b c : Nat)
    (h1 : rlt records a b) (h2 : rlt records b c) : rlt records a c :=
  rltb_trans h1 h2

theorem adjacentP_symm (records : List (Nat × Nat)) (a b : Nat)
    (h : adjacentP records a b) : adjacentP records b a := by
  rcases h with ⟨hne, hp⟩
  exact ⟨hne.symm, by rwa [packRecord_comm]⟩

theorem triangleCount_eq_cardSorted (records : List (Nat × Nat)) :
    triangleCount records
      = (sortedTriples (nodeCountForAllocation records) (· < ·)
        (adjacentP records)).card := by
  unfold triangleCount sortedTriples
  apply congrArg Finset.card
  apply Finset.filter_congr
  intro t _
  constructor
  · rintro ⟨h1, h2, h3, h4, h5⟩
    exact ⟨h1, h2, by omega, h3, h4, h5⟩
  · rintro ⟨h1, h2, _, h3, h4, h5⟩
    exact ⟨h1, h2, h3, h4, h5⟩

theorem kernelSum_eq_triangleCount {records : List (Nat × Nat)}
    (h32 : IdsBounded records) (hE : EdgesBounded records) :
    kernelSum records = triangleCount records := by
  rw [kernelSum_eq_cardSorted h32 hE, triangleCount_eq_cardSorted,
    card_sortedTriples_eq (nodeCountForAllocation records) (rlt records)
      (adjacentP records) (rlt_irrefl records) (rlt_asymm records)
      (rlt_total records) (rlt_trans records) (adjacentP_symm records),
    card_sortedTriples_eq (nodeCountForAllocation records) (· < ·)
      (adjacentP records) (fun a => Nat.lt_irrefl a)
      (fun a b h1 h2 => by omega) (fun a b h => by omega)
      (fun a b c h1 h2 => by omega) (adjacentP_symm records)]

theorem kernelResult_eq_mod {records : List (Nat × Nat)}
    (h32 : IdsBounded records) (hE : EdgesBounded records) :
    kernelResult records = triangleCount records % M32 := by
  unfold kernelResult
  rw [kernelSum_eq_triangleCount h32 hE]

/-! ## Skipped lines contribute nothing (both passes) -/

theorem foldl_eq_foldl_filter {α β : Type} (step : β → α → β)
    (keep : α → Bool) (h : ∀ b a, keep a = false → step b a = b) :
    ∀ (l : List α) (b : β), l.foldl step b = (l.filter keep).foldl step b := by
  intro l
  induction l with
  | nil => intro b; rfl
  | cons a as ih =>
    intro b
    rw [List.foldl_cons, List.filter_cons]
    by_cases hk : keep a = true
    · rw [if_pos hk, List.foldl_cons, ih]
    · rw [Bool.not_eq_true] at hk
      rw [if_neg (by rw [hk]; exact Bool.false_ne_true), h b a hk, ih]

theorem passOneStep_skip (parse : String → Nat × Nat) (s : PassOneState)
    (line : String) (h : keepLine line = false) :
    passOneStep parse s line = s := by
  unfold keepLine at h
  unfold passOneStep
  rcases Bool.and_eq_false_iff.mp h with h1 | h1
  · rw [Bool.not_eq_false'] at h1
    rw [if_pos h1]
  · rw [Bool.not_eq_false'] at h1
    by_cases h2 : line.length == 0
    · rw [if_pos h2]
    · rw [if_neg h2, if_pos h1]

theorem passTwoStep_skip (parse : String → Nat × Nat) (acc : List Nat)
    (line : String) (h : keepLine line = false) :
    passTwoStep parse acc line = acc := by
  unfold keepLine at h
  unfold passTwoStep
  rcases Bool.and_eq_false_iff.mp h with h1 | h1
  · rw [Bool.not_eq_false'] at h1
    rw [if_pos h1]
  · rw [Bool.not_eq_false'] at h1
    by_cases h2 : line.length == 0
    · rw [if_pos h2]
    · rw [if_neg h2, if_pos h1]

/-! ## The spec's rank order against the code's -/

theorem rltb_iff (deg : Nat → Nat) (u v : Nat) :
    rltb deg u v = true ↔ deg u < deg v ∨ (deg u = deg v ∧ u < v) := by
  simp [rltb]

theorem rankLt_iff_rlt {records : List (Nat × Nat)}
    (h32 : IdsBounded records) (hE : EdgesBounded records) (u v : Nat) :
    rankLt records u v ↔ rlt records u v := by
  unfold rankLt rlt
  rw [rltb_iff, degrees_eq_trueDeg h32 hE, degrees_eq_trueDeg h32 hE]

/-! ## Row occurrence counts for the orientation invariant -/

theorem row_count_one {records : List (Nat × Nat)}
    (h32 : IdsBounded records) {a v : Nat} (ha : a < M32) (hv : v < M32)
    (hadj : adjacentP records a v) (hr : rlt records a v) :
    (orientedAdj records a).count v = 1 :=
  List.count_eq_one_of_mem (orientedAdj_nodup h32 a)
    (mem_orientedAdj_intro h32 ha hv hadj hr)

theorem row_count_zero {records : List (Nat × Nat)}
    (h32 : IdsBounded records) {a v : Nat} (hr : rlt records v a) :
    (orientedAdj records a).count v = 0 := by
  rw [List.count_eq_zero]
  intro hmem
  have := (mem_orientedAdj_elim h32 hmem).2.1
  exact absurd this ((Bool.not_eq_true _).mpr (by
    unfold rlt at hr
    exact rltb_asymm hr))

/-! ## Canonical pairs: no self-loops, no unordered duplicates -/

theorem canonicalPairs_no_selfloop {records : List (Nat × Nat)}
    (h32 : IdsBounded records) :
    ∀ pr ∈ canonicalPairs records, pr.1 ≠ pr.2 := by
  intro pr hpr
  rcases List.mem_map.mp hpr with ⟨p, hp, rfl⟩
  exact ne_of_lt (canonical_hi_lt_lo h32 hp)

theorem canonicalPairs_no_dup {records : List (Nat × Nat)}
    (h32 : IdsBounded records) :
    (canonicalPairs records).Pairwise
      (fun pr qr => ¬ (pr = qr ∨ (pr.1 = qr.2 ∧ pr.2 = qr.1))) := by
  unfold canonicalPairs
  rw [List.pairwise_map]
  have hs := uniquePackedEdges_sorted records
  apply List.Pairwise.imp_of_mem ?_ hs
  intro p q hp hq hlt
  have hp1 := canonical_hi_lt_lo h32 hp
  have hq1 := canonical_hi_lt_lo h32 hq
  have hrp := canonical_repack h32 hp
  have hrq := canonical_repack h32 hq
  rintro (heq | ⟨h1, h2⟩)
  · have : p = q := by
      rw [← hrp, ← hrq]
      rw [show (unpackHi p, unpackLo p) = (unpackHi q, unpackLo q) from heq]
    omega
  · omega

/-! ## Offset monotonicity and differences -/

theorem adjOffsets_mono {records : List (Nat × Nat)}
    (hE : EdgesBounded records) {i : Nat}
    (hi : i < nodeCountForAllocation records) :
    (adjOffsets records).getD i 0 ≤ (adjOffsets records).getD (i + 1) 0 := by
  rw [adjOffsets_getD_of_bounded hE (by omega),
    adjOffsets_getD_of_bounded hE (by omega)]
  apply Finset.sum_le_sum_of_subset
  intro x hx
  simp only [Finset.mem_range] at hx ⊢
  omega

theorem adjOffsets_diff {records : List (Nat × Nat)}
    (hE : EdgesBounded records) {i : Nat}
    (hi : i < nodeCountForAllocation records) :
    (adjOffsets records).getD (i + 1) 0 - (adjOffsets records).getD i 0
      = (orientedAdj records i).length := by
  rw [adjOffsets_getD_of_bounded hE (by omega),
    adjOffsets_getD_of_bounded hE (by omega), Finset.sum_range_succ,
    sortedRow_length]
  omega

theorem adjOffsets_last {records : List (Nat × Nat)}
    (hE : EdgesBounded records) :
    (adjOffsets records).getD (nodeCountForAllocation records) 0
      = (adjData records).length := by
  rw [adjOffsets_getD_of_bounded hE le_rfl, adjData_length,
    ← sum_row_lengths records]
  exact Finset.sum_congr rfl (fun j _ => sortedRow_length records j)

/-! # Claim theorems -/

/-- C1: for every input stream whose endpoint identifiers fit the 64-bit
packing (below `2 ^ 32`) and whose canonical edge count fits the `u32` CSR
interface, if the triangle count fits the `u32` result counter then the
value read back after the dispatch equals the number of 3-cliques of the
graph the preprocessing pipeline produced.  The proof counts each triangle
`{u, v, w}` with `rank(u) < rank(v) < rank(w)` exactly once, at `u`'s
oriented edge to `v` (`kernelSum_eq_triangleCount` establishes the
bijection between kernel-visited triples and triangles). -/
theorem C1_kernel_exact_triangle_count (records : List (Nat × Nat))
    (h32 : IdsBounded records) (hE : EdgesBounded records)
    (hT : triangleCount records < M32) :
    kernelResult records = triangleCount records := by
  rw [kernelResult_eq_mod h32 hE]
  exact Nat.mod_eq_of_lt hT

set_option maxRecDepth 100000 in
theorem C1_witness :
    IdsBounded [(1, 2), (2, 3), (1, 3)] ∧
    EdgesBounded [(1, 2), (2, 3), (1, 3)] ∧
    triangleCount [(1, 2), (2, 3), (1, 3)] < M32 ∧
    kernelResult [(1, 2), (2, 3), (1, 3)]
      = triangleCount [(1, 2), (2, 3), (1, 3)] :=
  ⟨by decide, by decide, by decide,
    C1_kernel_exact_triangle_count [(1, 2), (2, 3), (1, 3)] (by decide)
      (by decide) (by decide)⟩

/-- C2: on any two index ranges into the flat adjacency array whose
contents are strictly ascending, `count_intersection` returns the size of
the set intersection of the two ranges' element sets.  The two-pointer
merge itself is the definition `count_intersection` / `interGo`, translated
from the shader. -/
theorem C2_count_intersection_size (data : List Nat) (uS uE vS vE : Nat)
    (hu : uE ≤ data.length) (hv : vE ≤ data.length)
    (hsu : List.Sorted (· < ·) (sliceD data uS uE))
    (hsv : List.Sorted (· < ·) (sliceD data vS vE)) :
    count_intersection data uS uE vS vE
      = ((sliceD data uS uE).toFinset ∩ (sliceD data vS vE).toFinset).card :=
  count_intersection_card hu hv hsu hsv

set_option maxRecDepth 40000 in
theorem C2_witness :
    3 ≤ ([1, 2, 3, 1, 3] : List Nat).length ∧
    5 ≤ ([1, 2, 3, 1, 3] : List Nat).length ∧
    List.Sorted (· < ·) (sliceD [1, 2, 3, 1, 3] 0 3) ∧
    List.Sorted (· < ·) (sliceD [1, 2, 3, 1, 3] 3 5) ∧
    count_intersection [1, 2, 3, 1, 3] 0 3 3 5
      = ((sliceD [1, 2, 3, 1, 3] 0 3).toFinset ∩
        (sliceD [1, 2, 3, 1, 3] 3 5).toFinset).card :=
  ⟨by decide, by decide, by decide, by decide,
    C2_count_intersection_size [1, 2, 3, 1, 3] 0 3 3 5 (by decide)
      (by decide) (by decide) (by decide)⟩

/-- C3 as stated is false: the claim quantifies over any input, but the
64-bit packing silently truncates identifiers at or above `2 ^ 32`
(see C9), and on the single-record input `(1, 2 ^ 32 + 1)` the canonical
edge list read back as pairs contains the self-loop pair `(1, 1)`. -/
theorem C3_counterexample :
    ((1 : Nat), (1 : Nat)) ∈ canonicalPairs [(1, 4294967297)] := by decide

/-- C3 amended: for any input whose endpoint identifiers are all below
`2 ^ 32`, the canonical edge set contains no self-loop pair and no
duplicate unordered pair, and the packed key is independent of the
orientation of the record, so `(x, y)` and `(y, x)` deduplicate to the same
canonical edge. -/
theorem C3_amended_dedup_invariant (records : List (Nat × Nat)) (x y : Nat)
    (h32 : IdsBounded records) :
    (∀ pr ∈ canonicalPairs records, pr.1 ≠ pr.2) ∧
    (canonicalPairs records).Pairwise
      (fun pr qr => ¬ (pr = qr ∨ (pr.1 = qr.2 ∧ pr.2 = qr.1))) ∧
    packRecord (x, y) = packRecord (y, x) :=
  ⟨canonicalPairs_no_selfloop h32, canonicalPairs_no_dup h32,
    packRecord_comm x y⟩

set_option maxRecDepth 40000 in
theorem C3_witness :
    IdsBounded [(3, 5), (5, 3), (1, 2)] ∧
    ((∀ pr ∈ canonicalPairs [(3, 5), (5, 3), (1, 2)], pr.1 ≠ pr.2) ∧
    (canonicalPairs [(3, 5), (5, 3), (1, 2)]).Pairwise
      (fun pr qr => ¬ (pr = qr ∨ (pr.1 = qr.2 ∧ pr.2 = qr.1))) ∧
    packRecord (3, 5) = packRecord (5, 3)) :=
  ⟨by decide, C3_amended_dedup_invariant [(3, 5), (5, 3), (1, 2)] 3 5
    (by decide)⟩

/-- C4: every canonical edge is recorded in exactly one node's oriented
row — under the endpoint of lower rank, pointing to the higher-ranked one —
and never under both; `rankLt` is the specification's rank order, defined
from canonical-graph degrees exactly as the claim words it. -/
theorem C4_orientation_invariant (records : List (Nat × Nat)) (p : Nat)
    (h32 : IdsBounded records) (hE : EdgesBounded records)
    (hp : p ∈ uniquePackedEdges records) :
    (rankLt records (unpackHi p) (unpackLo p) ∨
      rankLt records (unpackLo p) (unpackHi p)) ∧
    (rankLt records (unpackHi p) (unpackLo p) →
      (orientedAdj records (unpackHi p)).count (unpackLo p) = 1 ∧
      (orientedAdj records (unpackLo p)).count (unpackHi p) = 0) ∧
    (rankLt records (unpackLo p) (unpackHi p) →
      (orientedAdj records (unpackLo p)).count (unpackHi p) = 1 ∧
      (orientedAdj records (unpackHi p)).count (unpackLo p) = 0) := by
  have hne : unpackHi p ≠ unpackLo p :=
    ne_of_lt (canonical_hi_lt_lo h32 hp)
  have hp64 : p < M64 := by
    rcases mem_uniquePackedEdges.mp hp with ⟨r, _, _, rfl⟩
    exact packRecord_lt r
  have ha : unpackHi p < M32 := unpackHi_lt hp64
  have hb : unpackLo p < M32 := unpackLo_lt p
  have hadj : adjacentP records (unpackHi p) (unpackLo p) :=
    ⟨hne, by rw [canonical_repack h32 hp]; exact hp⟩
  refine ⟨?_, ?_, ?_⟩
  · unfold rankLt
    omega
  · intro hr
    have hrl : rlt records (unpackHi p) (unpackLo p) :=
      (rankLt_iff_rlt h32 hE _ _).mp hr
    exact ⟨row_count_one h32 ha hb hadj hrl, row_count_zero h32 hrl⟩
  · intro hr
    have hrl : rlt records (unpackLo p) (unpackHi p) :=
      (rankLt_iff_rlt h32 hE _ _).mp hr
    exact ⟨row_count_one h32 hb ha (adjacentP_symm _ _ _ hadj) hrl,
      row_count_zero h32 hrl⟩

set_option maxRecDepth 40000 in
theorem C4_witness :
    IdsBounded [(1, 2), (2, 3)] ∧
    EdgesBounded [(1, 2), (2, 3)] ∧
    4294967298 ∈ uniquePackedEdges [(1, 2), (2, 3)] ∧
    ((rankLt [(1, 2), (2, 3)] (unpackHi 4294967298) (unpackLo 4294967298) ∨
      rankLt [(1, 2), (2, 3)] (unpackLo 4294967298) (unpackHi 4294967298)) ∧
    (rankLt [(1, 2), (2, 3)] (unpackHi 4294967298) (unpackLo 4294967298) →
      (orientedAdj [(1, 2), (2, 3)] (unpackHi 4294967298)).count
        (unpackLo 4294967298) = 1 ∧
      (orientedAdj [(1, 2), (2, 3)] (unpackLo 4294967298)).count
        (unpackHi 4294967298) = 0) ∧
    (rankLt [(1, 2), (2, 3)] (unpackLo 4294967298) (unpackHi 4294967298) →
      (orientedAdj [(1, 2), (2, 3)] (unpackLo 4294967298)).count
        (unpackHi 4294967298) = 1 ∧
      (orientedAdj [(1, 2), (2, 3)] (unpackHi 4294967298)).count
        (unpackLo 4294967298) = 0)) :=
  ⟨by decide, by decide, by decide,
    C4_orientation_invariant [(1, 2), (2, 3)] 4294967298 (by decide)
      (by decide) (by decide)⟩

/-- C5: the flat adjacency array holds exactly one entry per canonical
edge (as does the union of the oriented rows), `offsets[N]` is its length,
and consecutive offsets are non-decreasing with difference equal to the
node's oriented out-degree. -/
theorem C5_edge_conservation_and_offsets (records : List (Nat × Nat))
    (i : Nat) (hE : EdgesBounded records)
    (hi : i < nodeCountForAllocation records) :
    (∑ u ∈ Finset.range (nodeCountForAllocation records),
      (orientedAdj records u).length = (uniquePackedEdges records).length) ∧
    (adjData records).length = (uniquePackedEdges records).length ∧
    (adjOffsets records).getD (nodeCountForAllocation records) 0
      = (adjData records).length ∧
    (adjOffsets records).getD i 0 ≤ (adjOffsets records).getD (i + 1) 0 ∧
    (adjOffsets records).getD (i + 1) 0 - (adjOffsets records).getD i 0
      = (orientedAdj records i).length :=
  ⟨sum_row_lengths records, adjData_length records, adjOffsets_last hE,
    adjOffsets_mono hE hi, adjOffsets_diff hE hi⟩

set_option maxRecDepth 100000 in
theorem C5_witness :
    EdgesBounded [(1, 2), (2, 3), (1, 3)] ∧
    1 < nodeCountForAllocation [(1, 2), (2, 3), (1, 3)] ∧
    ((∑ u ∈ Finset.range (nodeCountForAllocation [(1, 2), (2, 3), (1, 3)]),
      (orientedAdj [(1, 2), (2, 3), (1, 3)] u).length
        = (uniquePackedEdges [(1, 2), (2, 3), (1, 3)]).length) ∧
    (adjData [(1, 2), (2, 3), (1, 3)]).length
      = (uniquePackedEdges [(1, 2), (2, 3), (1, 3)]).length ∧
    (adjOffsets [(1, 2), (2, 3), (1, 3)]).getD
      (nodeCountForAllocation [(1, 2), (2, 3), (1, 3)]) 0
      = (adjData [(1, 2), (2, 3), (1, 3)]).length ∧
    (adjOffsets [(1, 2), (2, 3), (1, 3)]).getD 1 0
      ≤ (adjOffsets [(1, 2), (2, 3), (1, 3)]).getD 2 0 ∧
    (adjOffsets [(1, 2), (2, 3), (1, 3)]).getD 2 0
      - (adjOffsets [(1, 2), (2, 3), (1, 3)]).getD 1 0
      = (orientedAdj [(1, 2), (2, 3), (1, 3)] 1).length) :=
  ⟨by decide, by decide,
    C5_edge_conservation_and_offsets [(1, 2), (2, 3), (1, 3)] 1 (by decide)
      (by decide)⟩

/-- C6: every row of the compact representation — the slice of the flat
adjacency array between consecutive offsets — is strictly ascending. -/
theorem C6_rows_strictly_ascending (records : List (Nat × Nat)) (i : Nat)
    (h32 : IdsBounded records) (hE : EdgesBounded records)
    (hi : i < nodeCountForAllocation records) :
    List.Sorted (· < ·)
      (sliceD (adjData records) ((adjOffsets records).getD i 0)
        ((adjOffsets records).getD (i + 1) 0)) := by
  rw [adjData_slice hE hi]
  exact sortedRow_sorted_lt h32 i

set_option maxRecDepth 100000 in
theorem C6_witness :
    IdsBounded [(1, 2), (1, 3), (1, 4), (2, 3), (2, 4), (3, 4)] ∧
    EdgesBounded [(1, 2), (1, 3), (1, 4), (2, 3), (2, 4), (3, 4)] ∧
    1 < nodeCountForAllocation
      [(1, 2), (1, 3), (1, 4), (2, 3), (2, 4), (3, 4)] ∧
    List.Sorted (· < ·)
      (sliceD (adjData [(1, 2), (1, 3), (1, 4), (2, 3), (2, 4), (3, 4)])
        ((adjOffsets [(1, 2), (1, 3), (1, 4), (2, 3), (2, 4), (3, 4)]).getD
          1 0)
        ((adjOffsets [(1, 2), (1, 3), (1, 4), (2, 3), (2, 4), (3, 4)]).getD
          2 0)) :=
  ⟨by decide, by decide, by decide,
    C6_rows_strictly_ascending
      [(1, 2), (1, 3), (1, 4), (2, 3), (2, 4), (3, 4)] 1 (by decide)
      (by decide) (by decide)⟩

/-- C7: a kernel invocation whose global id is at least
`arrayLength(&adj_offsets) - 1` returns immediately: it contributes zero to
the result counter, leaving it and all other state unchanged. -/
theorem C7_oob_invocation_no_work (offs data : List Nat) (u : Nat)
    (h : offs.length - 1 ≤ u) : kernelMain offs data u = 0 :=
  kernelMain_oob h

theorem C7_witness :
    ([0, 0] : List Nat).length - 1 ≤ 1 ∧ kernelMain [0, 0] [] 1 = 0 :=
  ⟨by decide, C7_oob_invocation_no_work [0, 0] [] 1 (by decide)⟩

/-- C8: blank lines and lines beginning with `#` are skipped identically in
both ingestion passes, for any line parser: running a pass over the raw
line stream gives the same result as running it over the stream with those
lines removed, so they contribute nothing to the pass-1 statistics
(`officialEdgeCount`, `uniqueNodeIds`, `maxNodeId`, `validEdgeCount`) nor
to the packed edge array of pass 2 from which the canonical edge set is
built. -/
theorem C8_comment_blank_lines_ignored (parse : String → Nat × Nat)
    (lines : List String) :
    passOne parse lines = passOne parse (lines.filter keepLine) ∧
    passTwo parse lines = passTwo parse (lines.filter keepLine) := by
  constructor
  · unfold passOne
    exact foldl_eq_foldl_filter _ _
      (fun b a h => passOneStep_skip parse b a h) lines _
  · unfold passTwo
    exact foldl_eq_foldl_filter _ _
      (fun b a h => passTwoStep_skip parse b a h) lines _

/-- C9: the claimed validation does not exist in the code.  The packing
`(BigInt(min) << 32n) | BigInt(max)` stored into a `BigUint64Array` slot
silently truncates: on the single record `(0, 2 ^ 32)` the pipeline
completes and produces the canonical pair `(1, 0)` instead of rejecting the
run — the edge `{0, 2 ^ 32}` has silently become an edge between nodes 1
and 0. -/
theorem C9_silent_truncation_eval :
    canonicalPairs [(0, 4294967296)] = [(1, 0)] := by decide

/-- C10: the result counter is a `u32` accumulated by wrapping atomic
addition, so the value read back equals the true triangle count modulo
`2 ^ 32`; a graph with `2 ^ 32` or more triangles would yield the wrapped
residue. -/
theorem C10_result_is_count_mod_2pow32 (records : List (Nat × Nat))
    (h32 : IdsBounded records) (hE : EdgesBounded records) :
    kernelResult records = triangleCount records % M32 :=
  kernelResult_eq_mod h32 hE

set_option maxRecDepth 100000 in
theorem C10_witness :
    IdsBounded [(1, 2), (1, 3), (1, 4), (2, 3), (2, 4), (3, 4)] ∧
    EdgesBounded [(1, 2), (1, 3), (1, 4), (2, 3), (2, 4), (3, 4)] ∧
    kernelResult [(1, 2), (1, 3), (1, 4), (2, 3), (2, 4), (3, 4)]
      = triangleCount [(1, 2), (1, 3), (1, 4), (2, 3), (2, 4), (3, 4)]
        % M32 :=
  ⟨by decide, by decide,
    C10_result_is_count_mod_2pow32
      [(1, 2), (1, 3), (1, 4), (2, 3), (2, 4), (3, 4)] (by decide)
      (by decide)⟩

end TriCount
